import Mathlib

set_option maxHeartbeats 1000000
set_option maxRecDepth 100000

namespace Crawler

/-!
Shallow embedding of the `ddoxey/crawler` repository.  C++ `std::string`
values are modelled as `List Char`, one `Char` per byte.  Each definition
mirrors one function of the source; the file ends with the theorems that
settle the specification claims.
-/

abbrev Str := List Char

/-! ## URL (src/URL.cpp)

The parser is the POSIX extended regex
`^((https?)://)?([^/?#]+)(/[^?#]*)?(\?[^#]*)?(#.*)?$`.
`hostChar`, `pathChar`, `queryChar` are the character classes of the
host, path and query groups. -/

def hostChar (c : Char) : Bool := !(c == '/' || c == '?' || c == '#')

def pathChar (c : Char) : Bool := !(c == '?' || c == '#')

def queryChar (c : Char) : Bool := !(c == '#')

structure URL where
  scheme : Str
  host : Str
  path : Str
  query : Str
  fragment : Str
deriving Repr, DecidableEq

/-- A default-constructed `URL`: all fields are empty strings, which is the
state the members keep when the regex rejects the input. -/
def URL.empty : URL := ⟨[], [], [], [], []⟩

/-- Group 3 of the regex: the maximal leading run of `[^/?#]` characters. -/
def hostOf (s : Str) : Str := s.takeWhile hostChar

def afterHost (s : Str) : Str := s.dropWhile hostChar

/-- Group 4: `(/[^?#]*)?` — present only when the remainder starts with a
slash, in which case it takes the maximal run of `[^?#]` characters. -/
def pathOf (r : Str) : Str :=
  if r.head? = some '/' then r.takeWhile pathChar else []

def afterPath (r : Str) : Str :=
  if r.head? = some '/' then r.dropWhile pathChar else r

/-- Group 5: `(\?[^#]*)?` — keeps the leading question mark, as the source
stores `match[5]` verbatim. -/
def queryOf (r : Str) : Str :=
  if r.head? = some '?' then r.takeWhile queryChar else []

def afterQuery (r : Str) : Str :=
  if r.head? = some '?' then r.dropWhile queryChar else r

/-- Decompose everything after the optional scheme into host, path, query
and fragment; `fragment` drops the leading hash (`match[6].str().substr(1)`). -/
def parseFields (scheme : Str) (rest : Str) : URL :=
  let h := hostOf rest
  let r1 := afterHost rest
  let p := pathOf r1
  let r2 := afterPath r1
  let q := queryOf r2
  let r3 := afterQuery r2
  ⟨scheme, h, p, q, r3.drop 1⟩

def httpsPre : Str := ('h' :: 't' :: 't' :: 'p' :: 's' :: ':' :: '/' :: '/' :: [])

def httpPre : Str := ('h' :: 't' :: 't' :: 'p' :: ':' :: '/' :: '/' :: [])

def schemeHttps : Str := ('h' :: 't' :: 't' :: 'p' :: 's' :: [])

def schemeHttp : Str := ('h' :: 't' :: 't' :: 'p' :: [])

instance (s : Str) : Decidable (∃ t, s = httpsPre ++ t) :=
  decidable_of_iff (s.take 8 = httpsPre) (by
    constructor
    · intro h
      exact ⟨s.drop 8, by rw [← h, List.take_append_drop]⟩
    · rintro ⟨t, rfl⟩
      simp [httpsPre])

instance (s : Str) : Decidable (∃ t, s = httpPre ++ t) :=
  decidable_of_iff (s.take 7 = httpPre) (by
    constructor
    · intro h
      exact ⟨s.drop 7, by rw [← h, List.take_append_drop]⟩
    · rintro ⟨t, rfl⟩
      simp [httpPre])

/-- `URL::Parse` as a partial function: `none` models the regex rejecting the
whole input (the members then stay default-empty).  With the optional scheme
group the POSIX match exists exactly when a nonempty host run remains; group 1
is matched greedily, so a scheme prefix is consumed whenever the remainder
still has a nonempty host run. -/
def URL.ParseOpt (s : Str) : Option URL :=
  if (∃ t, s = httpsPre ++ t) ∧ hostOf (s.drop 8) ≠ [] then
    some (parseFields schemeHttps (s.drop 8))
  else if (∃ t, s = httpPre ++ t) ∧ hostOf (s.drop 7) ≠ [] then
    some (parseFields schemeHttp (s.drop 7))
  else if hostOf s ≠ [] then
    some (parseFields [] s)
  else none

/-- Constructing a `URL` from a string: on regex failure the fields remain
default-empty. -/
def URL.Parse (s : Str) : URL := (URL.ParseOpt s).getD URL.empty

def sepStr : Str := (':' :: '/' :: '/' :: [])

/-- `URL::GetQuery` on a freshly parsed URL: `queryParams_` has not been
materialised, so the raw stored query (with its leading `?`) is returned. -/
def URL.GetQuery (u : URL) : Str := u.query

def URL.GetHost (u : URL) : Str := u.host

def URL.GetScheme (u : URL) : Str := u.scheme

def URL.GetPath (u : URL) : Str := u.path

/-- `URL::ToString`: scheme + "://" when a scheme is present, host, path with
a slash prepended when nonempty and not already slash-led, raw query, and
`#fragment` when the fragment is nonempty. -/
def URL.ToString (u : URL) : Str :=
  (if u.scheme = [] then [] else u.scheme ++ sepStr) ++
  u.host ++
  (if u.path = [] then [] else (if u.path.head? = some '/' then [] else ['/']) ++ u.path) ++
  u.query ++
  (if u.fragment = [] then [] else '#' :: u.fragment)

/-! ## URL::Resolve and path normalization (src/URL.cpp lines 73-171) -/

/-- The walk of the `normalize_path` splitting loop, with `cur` holding the
current segment reversed.  At a slash the segment is emitted; the loop stops
after a trailing slash without emitting a trailing empty segment. -/
def rawSegsGo (cur : Str) : Str → List Str
  | [] => [cur.reverse]
  | c :: rest =>
    if c = '/' then
      cur.reverse :: (match rest with | [] => [] | _ :: _ => rawSegsGo [] rest)
    else rawSegsGo (c :: cur) rest

/-- The loop of `normalize_path` that splits the raw path on slashes.  The
C++ loop emits one segment per iteration and stops once the cursor passes the
end, so a trailing slash does not produce a trailing empty segment. -/
def rawSegs (s : Str) : List Str :=
  match s with
  | [] => []
  | _ :: _ => rawSegsGo [] s

/-- The segment-collapsing loop of `normalize_path`: `..` pops the last kept
segment (when any), `.` and empty segments are dropped, everything else is
pushed. -/
def collapseSegs : List Str → List Str → List Str
  | [], parts => parts
  | seg :: rest, parts =>
    if seg = ['.', '.'] then collapseSegs rest parts.dropLast
    else if seg = [] ∨ seg = ['.'] then collapseSegs rest parts
    else collapseSegs rest (parts ++ [seg])

/-- Join segments with a single separator character between them. -/
def joinWith (sep : Char) : List Str → Str
  | [] => []
  | [a] => a
  | a :: b :: r => a ++ sep :: joinWith sep (b :: r)

/-- The output assembly of `normalize_path`: a leading slash, then the kept
segments joined by slashes. -/
def joinSegs (parts : List Str) : Str := '/' :: joinWith '/' parts

def normalizePath (raw : Str) : Str := joinSegs (collapseSegs (rawSegs raw) [])

/-- `path_.substr(0, path_.find_last_of('/') + 1)`: everything up to and
including the last slash; the whole expression is empty when the path has no
slash (`npos + 1 = 0`). -/
def lastSlashTake (p : Str) : Str := (p.reverse.dropWhile (fun c => !(c == '/'))).reverse

/-- `URL::Resolve(const std::string&)` (the overload at lines 121-171). -/
def URL.Resolve (base : URL) (ref : Str) : URL :=
  if sepStr <:+: ref then URL.Parse ref
  else if ref.take 2 = ['/', '/'] then URL.Parse (base.scheme ++ ':' :: ref)
  else
    let sv := ref.takeWhile (fun c => !(c == '#'))
    let frag := (ref.dropWhile (fun c => !(c == '#'))).drop 1
    let refPath := sv.takeWhile (fun c => !(c == '?'))
    let refQuery := sv.dropWhile (fun c => !(c == '?'))
    let origin := if base.scheme = [] then [] else base.scheme ++ sepStr ++ base.host
    let path :=
      if refPath = [] then (if base.path = [] then ['/'] else base.path)
      else if refPath.head? = some '/' then normalizePath refPath
      else
        let baseDir := if base.path = [] then ['/'] else lastSlashTake base.path
        normalizePath (baseDir ++ refPath)
    let query := if refQuery ≠ [] then refQuery else if refPath = [] then base.query else []
    URL.Parse (origin ++ path ++ query ++ (if frag = [] then [] else '#' :: frag))

/-! ## Registrable domain (src/URL.cpp lines 12-70, 263-299) -/

/-- `::tolower` in the C locale: only ASCII capitals change. -/
def toLowerCh (c : Char) : Char :=
  if 'A' ≤ c ∧ c ≤ 'Z' then Char.ofNat (c.toNat + 32) else c

def lowerStr (s : Str) : Str := s.map toLowerCh

/-- The walk of a separator split, with `cur` holding the current segment
reversed. -/
def splitGo (ch : Char) (cur : Str) : Str → List Str
  | [] => [cur.reverse]
  | c :: rest =>
    if c = ch then cur.reverse :: splitGo ch [] rest
    else splitGo ch (c :: cur) rest

/-- Generic split on a separator character, keeping empty segments and the
trailing empty segment; this is the behaviour of `split_labels`. -/
def splitOnCh (ch : Char) (s : Str) : List Str := splitGo ch [] s

def splitLabels (s : Str) : List Str := splitOnCh '.' s

def isIPv6Literal (h : Str) : Bool :=
  !h.isEmpty && h.head? == some '[' && h.getLast? == some ']'

def isStreamWS (c : Char) : Bool :=
  c == ' ' || c == '\t' || c == '\n' || c == '\x0b' || c == '\x0c' || c == '\r'

/-- Modelled `stream >> unsigned`: skip whitespace, allow one sign character,
then require a nonempty digit run; the numeric value is never used by
`is_ipv4`, so only the rest of the input is returned. -/
def readUInt (s : Str) : Option Str :=
  let s1 := s.dropWhile isStreamWS
  let s2 := if s1.head? = some '+' ∨ s1.head? = some '-' then s1.drop 1 else s1
  if s2.takeWhile (·.isDigit) = [] then none
  else some (s2.dropWhile (·.isDigit))

/-- Modelled `stream >> char`: skip whitespace, extract one character. -/
def readCh (s : Str) : Option (Char × Str) :=
  match s.dropWhile isStreamWS with
  | [] => none
  | c :: r => some (c, r)

/-- `is_ipv4`: four unsigned extractions separated by char extractions; only
the last separator read is still in `dot` when the chain succeeds. -/
def isIPv4 (host : Str) : Bool :=
  match readUInt host with
  | none => false
  | some r1 =>
  match readCh r1 with
  | none => false
  | some (_, r2) =>
  match readUInt r2 with
  | none => false
  | some r3 =>
  match readCh r3 with
  | none => false
  | some (_, r4) =>
  match readUInt r4 with
  | none => false
  | some r5 =>
  match readCh r5 with
  | none => false
  | some (d3, r6) =>
  match readUInt r6 with
  | none => false
  | some _ => d3 == '.'

def multiSuffixes : List Str :=
  ["co.uk", "ac.uk", "gov.uk", "org.uk", "sch.uk", "com.au", "net.au",
   "org.au", "edu.au", "gov.au", "co.jp", "ne.jp", "or.jp", "ac.jp",
   "go.jp", "co.nz", "org.nz", "govt.nz", "ac.nz", "com.br", "net.br",
   "org.br", "gov.br", "com.cn", "net.cn", "org.cn", "gov.cn"].map String.toList

/-- One iteration of the multi-label loop: the tail of the host equals the
suffix and the match is whole-label (either exact or preceded by a dot). -/
def suffixMatches (hostLc ps : Str) : Bool :=
  decide (ps.length ≤ hostLc.length) &&
  hostLc.drop (hostLc.length - ps.length) == ps &&
  (hostLc.length == ps.length || hostLc.getD (hostLc.length - ps.length - 1) 'x' == '.')

/-- `public_suffix_len`; every entry of the table has two labels, so a match
returns `count('.') + 1 = 2`.  At most one entry can match a given host
because a match fixes the host's tail characters, so the unordered-set
iteration order is immaterial. -/
def publicSuffixLen (hostLc : Str) : Nat :=
  if isIPv6Literal hostLc || isIPv4 hostLc then 0
  else if multiSuffixes.any (suffixMatches hostLc) then 2
  else if 1 ≤ (splitLabels hostLc).length then 1 else 0

/-- `URL::GetRegistrableDomain`. -/
def URL.GetRegistrableDomain (u : URL) : Str :=
  let hostLc := lowerStr u.host
  if isIPv6Literal hostLc || isIPv4 hostLc then hostLc
  else
    let labels := splitLabels hostLc
    let psLen := publicSuffixLen hostLc
    if psLen = 0 ∨ labels.length ≤ psLen then []
    else joinWith '.' (labels.drop (labels.length - (psLen + 1)))

/-! ## SHA-256 (OpenSSL `SHA256` as called by `URL::GetSha256`)

32-bit machine words are modelled as `Nat` reduced mod `2^32`. -/

def M32 : Nat := 4294967296

def rotr (n x : Nat) : Nat := ((x >>> n) ||| (x <<< (32 - n))) % M32

def shr (n x : Nat) : Nat := x >>> n

def bsig0 (x : Nat) : Nat := (rotr 2 x ^^^ rotr 13 x) ^^^ rotr 22 x

def bsig1 (x : Nat) : Nat := (rotr 6 x ^^^ rotr 11 x) ^^^ rotr 25 x

def ssig0 (x : Nat) : Nat := (rotr 7 x ^^^ rotr 18 x) ^^^ shr 3 x

def ssig1 (x : Nat) : Nat := (rotr 17 x ^^^ rotr 19 x) ^^^ shr 10 x

def chFn (x y z : Nat) : Nat := (x &&& y) ^^^ ((x ^^^ (M32 - 1)) &&& z)

def majFn (x y z : Nat) : Nat := ((x &&& y) ^^^ (x &&& z)) ^^^ (y &&& z)

def shaK : List Nat :=
  [1116352408, 1899447441, 3049323471, 3921009573, 961987163, 1508970993,
   2453635748, 2870763221, 3624381080, 310598401, 607225278, 1426881987,
   1925078388, 2162078206, 2614888103, 3248222580, 3835390401, 4022224774,
   264347078, 604807628, 770255983, 1249150122, 1555081692, 1996064986,
   2554220882, 2821834349, 2952996808, 3210313671, 3336571891, 3584528711,
   113926993, 338241895, 666307205, 773529912, 1294757372, 1396182291,
   1695183700, 1986661051, 2177026350, 2456956037, 2730485921, 2820302411,
   3259730800, 3345764771, 3516065817, 3600352804, 4094571909, 275423344,
   430227734, 506948616, 659060556, 883997877, 958139571, 1322822218,
   1537002063, 1747873779, 1955562222, 2024104815, 2227730452, 2361852424,
   2428436474, 2756734187, 3204031479, 3329325298]

def shaH0 : List Nat :=
  [1779033703, 3144134277, 1013904242, 2773480762,
   1359893119, 2600822924, 528734635, 1541459225]

def be8 (n : Nat) : List Nat :=
  [n >>> 56 % 256, n >>> 48 % 256, n >>> 40 % 256, n >>> 32 % 256,
   n >>> 24 % 256, n >>> 16 % 256, n >>> 8 % 256, n % 256]

def padMsg (bytes : List Nat) : List Nat :=
  let len := bytes.length
  let k := (55 + 64 - len % 64) % 64
  bytes ++ 0x80 :: List.replicate k 0 ++ be8 (len * 8)

def wordsOf : List Nat → List Nat
  | b0 :: b1 :: b2 :: b3 :: rest =>
    (((b0 * 256 + b1) * 256 + b2) * 256 + b3) :: wordsOf rest
  | _ => []

def chunks16Go : Nat → List Nat → List (List Nat)
  | _, [] => []
  | 0, _ :: _ => []
  | fuel + 1, w :: ws => (w :: ws).take 16 :: chunks16Go fuel ((w :: ws).drop 16)

/-- Split the padded word stream into 16-word blocks; the fuel equals the
word count, which each step strictly decreases, so it never runs out. -/
def chunks16 (ws : List Nat) : List (List Nat) := chunks16Go ws.length ws

def scheduleStep (w : List Nat) : List Nat :=
  w ++ [(ssig1 (w.getD (w.length - 2) 0) + w.getD (w.length - 7) 0 +
         ssig0 (w.getD (w.length - 15) 0) + w.getD (w.length - 16) 0) % M32]

def schedule (block : List Nat) : List Nat :=
  (List.range 48).foldl (fun acc _ => scheduleStep acc) block

def compressRound (w : List Nat) (st : List Nat) (t : Nat) : List Nat :=
  match st with
  | [a, b, c, d, e, f, g, hh] =>
    let t1 := (hh + bsig1 e + chFn e f g + shaK.getD t 0 + w.getD t 0) % M32
    let t2 := (bsig0 a + majFn a b c) % M32
    [(t1 + t2) % M32, a, b, c, (d + t1) % M32, e, f, g]
  | st => st

def compress (h : List Nat) (block : List Nat) : List Nat :=
  let w := schedule block
  let st := (List.range 64).foldl (compressRound w) h
  (h.zip st).map (fun p => (p.1 + p.2) % M32)

def sha256Words (bytes : List Nat) : List Nat :=
  (chunks16 (wordsOf (padMsg bytes))).foldl compress shaH0

def hexDigitCh (n : Nat) : Char :=
  if n < 10 then Char.ofNat (48 + n) else Char.ofNat (87 + n)

def byteHex (b : Nat) : Str := [hexDigitCh (b / 16), hexDigitCh (b % 16)]

def wordBytes (w : Nat) : List Nat := [w >>> 24 % 256, w >>> 16 % 256, w >>> 8 % 256, w % 256]

/-- The hex rendering loop: `std::hex << std::setw(2) << std::setfill('0')`
per byte, lowercase. -/
def sha256Hex (bytes : List Nat) : Str :=
  ((((sha256Words bytes).map wordBytes).flatten).map byteHex).flatten

def bytesOfStr (s : Str) : List Nat := s.map (fun c => c.toNat % 256)

/-- `URL::GetSha256`: SHA-256 over the canonical string, lowercase hex. -/
def URL.GetSha256 (u : URL) : Str := sha256Hex (bytesOfStr (URL.ToString u))

/-! ## CacheManager (src/unnamed/part_015, the revision the build uses)

The cache directory is a finite map from paths to file contents plus a
last-write time; an absent key models an absent file. -/

structure FSEntry where
  content : Str
  mtime : Int
deriving Repr, DecidableEq

abbrev FS := List (Str × FSEntry)

def fsLookup (fs : FS) (p : Str) : Option FSEntry :=
  (fs.find? (fun kv => kv.1 == p)).map (·.2)

def fsWrite (fs : FS) (p : Str) (e : FSEntry) : FS :=
  if fs.any (fun kv => kv.1 == p) then
    fs.map (fun kv => if kv.1 == p then (p, e) else kv)
  else fs ++ [(p, e)]

def fsErase (fs : FS) (p : Str) : FS := fs.filter (fun kv => !(kv.1 == p))

def dotTmp : Str := ('.' :: 't' :: 'm' :: 'p' :: [])

/-- `dir_ / url.GetSha256()`. -/
def bodyPath (dir : Str) (u : URL) : Str := dir ++ '/' :: URL.GetSha256 u

/-- `tmp = filename; tmp += ".tmp"`. -/
def tmpOf (p : Str) : Str := p ++ dotTmp

/-- `filename.replace_extension(ext)`: the digest file name contains no dot,
so the extension is appended. -/
def extPath (dir : Str) (u : URL) (ext : Str) : Str :=
  dir ++ '/' :: (URL.GetSha256 u ++ '.' :: ext)

/-- `IsExpired`: age is clamped at zero, and the entry is expired when the
age strictly exceeds the configured maximum. -/
def CacheManager.IsExpired (maxAge now mtime : Int) : Bool :=
  decide (maxAge < max (now - mtime) 0)

/-- `CacheManager::Fetch`: absent or expired gives `nullopt`, otherwise the
whole body file. -/
def CacheManager.Fetch (dir : Str) (maxAge : Int) (fs : FS) (now : Int) (u : URL) : Option Str :=
  match fsLookup fs (bodyPath dir u) with
  | none => none
  | some e => if CacheManager.IsExpired maxAge now e.mtime then none else some e.content

/-- The state after `CacheManager::Store(url, content)` finishes: the rename
replaces the target with the temporary file's full content and removes the
temporary name. -/
def CacheManager.StoreFinal (dir : Str) (fs : FS) (u : URL) (content : Str) (t : Int) : FS :=
  fsWrite (fsErase fs (tmpOf (bodyPath dir u))) (bodyPath dir u) ⟨content, t⟩

/-- Every filesystem state observable while `Store(url, content)` runs: the
initial state, one state per prefix of the temporary file as it is written
and flushed, and the final state after the rename. -/
def CacheManager.StoreTrace (dir : Str) (fs : FS) (u : URL) (content : Str) (t : Int) : List FS :=
  fs :: (List.range (content.length + 1)).map
      (fun i => fsWrite fs (tmpOf (bodyPath dir u)) ⟨content.take i, t⟩) ++
    [CacheManager.StoreFinal dir fs u content t]

/-! ## HttpResponse (src/unnamed/part_006) -/

structure HttpResponse where
  headers : List (Str × Str)
  body : Str
  statusCode : Int
deriving Repr, DecidableEq

def HttpResponse.empty : HttpResponse := ⟨[], [], 0⟩

def isHdrWS (c : Char) : Bool := c == ' ' || c == '\t' || c == '\r' || c == '\n'

/-- The `trim` lambda of `AddHeaderLine`. -/
def trimWS (s : Str) : Str := ((s.dropWhile isHdrWS).reverse.dropWhile isHdrWS).reverse

/-- `HttpResponse::AddHeaderLine`: a line without a colon is skipped; a line
with one is split at the first colon and both sides are trimmed. -/
def HttpResponse.AddHeaderLine (r : HttpResponse) (line : Str) : HttpResponse :=
  if line.any (· == ':') then
    let name := line.takeWhile (fun c => !(c == ':'))
    let value := (line.dropWhile (fun c => !(c == ':'))).drop 1
    { r with headers := r.headers ++ [(trimWS name, trimWS value)] }
  else r

def xHttpStatus : Str :=
  ('X' :: '-' :: 'H' :: 'T' :: 'T' :: 'P' :: '-' :: 'S' :: 't' :: 'a' :: 't' :: 'u' :: 's' :: [])

/-- `std::to_string` on a `long`. -/
def intDecimal (n : Int) : Str := (toString n).toList

/-- `HttpResponse::SetStatusCode`: records the code and appends the synthetic
`X-HTTP-Status` header pair. -/
def HttpResponse.SetStatusCode (r : HttpResponse) (s : Int) : HttpResponse :=
  { r with statusCode := s, headers := r.headers ++ [(xHttpStatus, intDecimal s)] }

def HttpResponse.GetHeaders (r : HttpResponse) : List (Str × Str) := r.headers

def HttpResponse.IsOkay (r : HttpResponse) : Bool :=
  decide (200 ≤ r.statusCode ∧ r.statusCode < 300)

/-! ## The `.headers` JSON artifact (part_015 `Store(url, response)`)

`nlohmann::json` object assignment `headers[key] = val` inserts the key or
overwrites its previous value. -/

abbrev JsonStrObj := List (Str × Str)

def jsonObjSet (m : JsonStrObj) (k v : Str) : JsonStrObj :=
  if m.any (fun kv => kv.1 == k) then
    m.map (fun kv => if kv.1 == k then (k, v) else kv)
  else m ++ [(k, v)]

def jsonObjGet (m : JsonStrObj) (k : Str) : Option Str :=
  (m.find? (fun kv => kv.1 == k)).map (·.2)

/-- The loop `for (const auto& [key, val] : response.GetHeaders()) headers[key] = val;`. -/
def CacheManager.headersArtifact (r : HttpResponse) : JsonStrObj :=
  r.headers.foldl (fun m kv => jsonObjSet m kv.1 kv.2) []

/-! ## LuaProcessor (src/LuaProcessor.cpp, second revision, lines 158-310) -/

inductive LuaVal where
  | nil
  | boolean (b : Bool)
  | num (n : Int)
  | str (s : Str)
  | table (entries : List (LuaVal × LuaVal))
  | other

inductive Json where
  | null
  | boolean (b : Bool)
  | num (n : Int)
  | str (s : Str)
  | arr (elems : List Json)
  | obj (fields : List (Str × Json))

/-- `is_array_like`: keys are the integers 1, 2, … in iteration order. -/
def isArrayLike (entries : List (LuaVal × LuaVal)) (i : Int) : Bool :=
  match entries with
  | [] => true
  | (k, _) :: rest =>
    match k with
    | .num n => n == i && isArrayLike rest (i + 1)
    | _ => false

mutual

/-- `LuaTableToJson(const sol::object&)`. -/
def luaToJson : LuaVal → Json
  | .nil => .null
  | .boolean b => .boolean b
  | .num n => .num n
  | .str s => .str s
  | .table es => luaTableToJson es
  | .other => .str ('<' :: 'u' :: 'n' :: 's' :: 'u' :: 'p' :: 'p' :: 'o' :: 'r' :: 't' :: 'e' :: 'd' :: ' ' :: 'v' :: 'a' :: 'l' :: 'u' :: 'e' :: '>' :: [])

/-- `LuaTableToJson(const sol::table&)`. -/
def luaTableToJson (es : List (LuaVal × LuaVal)) : Json :=
  if isArrayLike es 1 then .arr (luaArr es) else .obj (luaObj es)

def luaArr : List (LuaVal × LuaVal) → List Json
  | [] => []
  | (_, v) :: rest => luaToJson v :: luaArr rest

def luaObj : List (LuaVal × LuaVal) → List (Str × Json)
  | [] => []
  | (k, v) :: rest =>
    (match k with
     | .str s => s
     | .num n => intDecimal n
     | _ => ('<' :: 'u' :: 'n' :: 's' :: 'u' :: 'p' :: 'p' :: 'o' :: 'r' :: 't' :: 'e' :: 'd' :: ' ' :: 'k' :: 'e' :: 'y' :: '>' :: []),
     luaToJson v) :: luaObj rest

end

/-- The outcome reported by `sol::protected_function_result`: either the
script threw (`valid()` is false) or it returned a list of values. -/
inductive SolResult where
  | err (msg : Str)
  | ok (vals : List LuaVal)

/-- `LuaProcessor::Process` (lines 215-254): domain mismatch, invocation
error, fewer than one return value, or a non-table first value all yield
`nullopt`; otherwise the table is marshalled to JSON. -/
def LuaProcessor.Process (domainMatches : Bool) (r : SolResult) : Option Json :=
  if !domainMatches then none
  else
    match r with
    | .err _ => none
    | .ok vals =>
      match vals with
      | [] => none
      | v :: _ =>
        match v with
        | .table es => some (luaTableToJson es)
        | _ => none

/-! ## Crawler (src/Crawler.cpp) -/

abbrev JsonFS := List (Str × Json)

def jsonFsWrite (fs : JsonFS) (p : Str) (j : Json) : JsonFS :=
  if fs.any (fun kv => kv.1 == p) then
    fs.map (fun kv => if kv.1 == p then (p, j) else kv)
  else fs ++ [(p, j)]

def jsonExt : Str := ('j' :: 's' :: 'o' :: 'n' :: [])

/-- The script-dispatch step of `Crawler::Crawl` (lines 45-47): the
structured result is stored at `<digest>.json` only when `Process` returned
a value. -/
def ProcessAndStore (dir : Str) (jfs : JsonFS) (u : URL)
    (domainMatches : Bool) (r : SolResult) : JsonFS :=
  match LuaProcessor.Process domainMatches r with
  | none => jfs
  | some j => jsonFsWrite jfs (extPath dir u jsonExt) j

/-- `Crawler::Dwell` (lines 156-170) as a clock transition.  `entry` is the
steady-clock time on entry, `slack ≥ 0` the overshoot of `sleep_until`, and
the result is the time at which the fetch proceeds, paired with the updated
`next_allowed_` reservation `max(now, next_allowed) + rate_limit`. -/
def DwellStep (rateLimit nextAllowed entry slack : Nat) : Nat × Nat :=
  if rateLimit = 0 then (entry, nextAllowed)
  else
    let now2 := if entry < nextAllowed then nextAllowed + slack else entry
    (now2, max now2 nextAllowed + rateLimit)

/-- The fetch instants of one worker: each event supplies the delay between
the previous fetch and the next `Dwell` entry, and the sleep overshoot. -/
def FetchTimes (rateLimit : Nat) : Nat → Nat → List (Nat × Nat) → List Nat
  | _, _, [] => []
  | na, tprev, (wait, slack) :: rest =>
    let p := DwellStep rateLimit na (tprev + wait) slack
    p.1 :: FetchTimes rateLimit p.2 p.1 rest

/-! ## URLManager (src/URLManager.cpp lines 64-125) -/

/-- The newline sanitizer inside `URLManager::Store`. -/
def sanitizeLine (s : Str) : Str := s.filter (fun c => !(c == '\r' || c == '\n'))

/-- `std::string` ordering: lexicographic byte comparison. -/
def leStr : Str → Str → Bool
  | [], _ => true
  | _ :: _, [] => false
  | x :: xs, y :: ys =>
    if x.toNat < y.toNat then true
    else if y.toNat < x.toNat then false
    else leStr xs ys

def insertSorted (x : Str) : List Str → List Str
  | [] => [x]
  | y :: ys => if leStr x y then x :: y :: ys else y :: insertSorted x ys

/-- `std::sort` on the line batch (stability is irrelevant: equal strings are
identical). -/
def sortStrs (l : List Str) : List Str := l.foldr insertSorted []

/-- The scan of `std::unique`: drop elements equal to the last kept one. -/
def uniqGo (prev : Str) : List Str → List Str
  | [] => []
  | b :: r => if prev = b then uniqGo prev r else b :: uniqGo b r

/-- `std::unique` + `erase`: collapse adjacent equal lines. -/
def uniqAdj : List Str → List Str
  | [] => []
  | a :: r => a :: uniqGo a r

/-- `URLManager::Store` acting on the per-domain list file, with the batch
already rendered to canonical strings (`u.ToString()` over the set). -/
def URLManager.StoreList (file : Str) (urls : List Str) : Str :=
  if urls = [] then file
  else
    let lines := (urls.map sanitizeLine).filter (fun s => !s.isEmpty)
    if lines = [] then file
    else
      let sorted := uniqAdj (sortStrs lines)
      let needNL := file ≠ [] ∧ file.getLast? ≠ some '\n'
      file ++ (if needNL then ['\n'] else []) ++ (sorted.map (fun l => l ++ ['\n'])).flatten

/-- Occurrences of `x` as a full line of `file` (lines split at newlines). -/
def countLine (x : Str) (file : Str) : Nat :=
  ((splitOnCh '\n' file).filter (fun l => l == x)).length

/-! ## Shape predicates used to state the URL theorems -/

/-- The shape of a parsed path component: empty, or slash-led with no `?`/`#`. -/
def pathShape (p : Str) : Prop :=
  p = [] ∨ (p.head? = some '/' ∧ ∀ c ∈ p, pathChar c = true)

/-- The shape of a parsed raw query: empty, or led by `?` with no `#`. -/
def queryShape (q : Str) : Prop :=
  q = [] ∨ (q.head? = some '?' ∧ ∀ c ∈ q, queryChar c = true)

/-- The raw text of the fragment group: nothing, or `#` followed by the
stored fragment. -/
def fragRaw (f : Str) : Str := if f = [] then [] else '#' :: f

/-- The invariants every successfully parsed `URL` satisfies. -/
def URL.WF (u : URL) : Prop :=
  (u.scheme = [] ∨ u.scheme = schemeHttp ∨ u.scheme = schemeHttps) ∧
  u.host ≠ [] ∧ (∀ c ∈ u.host, hostChar c = true) ∧
  pathShape u.path ∧ queryShape u.query

/-- Strict byte-lexicographic order on strings. -/
def ltStr (a b : Str) : Prop := leStr a b = true ∧ a ≠ b

/-! # Theorems -/

/-! ## Generic helpers on character runs -/

theorem takeWhile_append_all (p : Char → Bool) (xs ys : Str)
    (h : ∀ c ∈ xs, p c = true) :
    (xs ++ ys).takeWhile p = xs ++ ys.takeWhile p := by
  induction xs with
  | nil => simp
  | cons a l ih =>
    have ha : p a = true := h a (by simp)
    simp only [List.cons_append, List.takeWhile_cons, ha, if_true]
    simp [ih (fun c hc => h c (by simp [hc]))]

theorem dropWhile_append_all (p : Char → Bool) (xs ys : Str)
    (h : ∀ c ∈ xs, p c = true) :
    (xs ++ ys).dropWhile p = ys.dropWhile p := by
  induction xs with
  | nil => simp
  | cons a l ih =>
    have ha : p a = true := h a (by simp)
    simp only [List.cons_append, List.dropWhile_cons, ha, if_true]
    exact ih (fun c hc => h c (by simp [hc]))

theorem run_split (p : Char → Bool) (xs ys : Str)
    (hx : ∀ c ∈ xs, p c = true) (hy : ys.takeWhile p = []) :
    (xs ++ ys).takeWhile p = xs ∧ (xs ++ ys).dropWhile p = ys := by
  constructor
  · rw [takeWhile_append_all p xs ys hx, hy, List.append_nil]
  · rw [dropWhile_append_all p xs ys hx]
    cases ys with
    | nil => rfl
    | cons a t =>
      by_cases hpa : p a = true
      · simp [List.takeWhile_cons, hpa] at hy
      · simp [List.dropWhile_cons, hpa]

theorem dropWhile_head_false (p : Char → Bool) (s : Str) (c : Char)
    (h : (s.dropWhile p).head? = some c) : p c = false := by
  induction s with
  | nil => simp [List.dropWhile] at h
  | cons a t ih =>
    by_cases hpa : p a = true
    · simp only [List.dropWhile_cons, hpa, if_true] at h
      exact ih h
    · simp only [List.dropWhile_cons, hpa, if_false] at h
      simp at h
      rw [← h]
      exact Bool.of_not_eq_true hpa

/-! ## C7: the per-worker rate limiter -/

theorem fetchTimes_head_ge (rateLimit : Nat) (hpos : 0 < rateLimit)
    (na tprev : Nat) (evs : List (Nat × Nat)) :
    ∀ x ∈ (FetchTimes rateLimit na tprev evs).head?, na ≤ x := by
  cases evs with
  | nil => simp [FetchTimes]
  | cons ev rest =>
    obtain ⟨w, s⟩ := ev
    simp only [FetchTimes, List.head?_cons, Option.mem_def, Option.some.injEq]
    intro x hx
    subst hx
    simp only [DwellStep, Nat.pos_iff_ne_zero.mp hpos, if_false]
    split
    · omega
    · omega

/-- C7: in one worker with a positive rate-limit interval, each `Dwell`
reserves `max(now, next_allowed) + interval`, so consecutive fetch instants
are at least the interval apart (fetches start when `Dwell` returns). -/
theorem C7_rate_limit_gap (rateLimit na tprev : Nat) (evs : List (Nat × Nat))
    (hpos : 0 < rateLimit) :
    List.Chain' (fun a b => a + rateLimit ≤ b)
      (FetchTimes rateLimit na tprev evs) := by
  induction evs generalizing na tprev with
  | nil => simp [FetchTimes]
  | cons ev rest ih =>
    obtain ⟨w, s⟩ := ev
    simp only [FetchTimes]
    rw [List.chain'_cons']
    refine ⟨?_, ih _ _⟩
    intro y hy
    have hge := fetchTimes_head_ge rateLimit hpos
      (DwellStep rateLimit na (tprev + w) s).2
      (DwellStep rateLimit na (tprev + w) s).1 rest y hy
    have hres : (DwellStep rateLimit na (tprev + w) s).1 + rateLimit ≤
        (DwellStep rateLimit na (tprev + w) s).2 := by
      simp only [DwellStep, Nat.pos_iff_ne_zero.mp hpos, if_false]
      split <;> simp
    omega

/-- Witness for C7 at a concrete trace. -/
theorem C7_rate_limit_gap_witness :
    0 < 10 ∧ List.Chain' (fun a b => a + 10 ≤ b)
      (FetchTimes 10 0 0 [(0, 0), (3, 1), (50, 0)]) :=
  ⟨by decide, C7_rate_limit_gap 10 0 0 [(0, 0), (3, 1), (50, 0)] (by decide)⟩

/-! ## The headers JSON object: upsert semantics -/

theorem find?_upsert_self (m : JsonStrObj) (k v : Str)
    (hany : m.any (fun kv => kv.1 == k) = true) :
    (m.map (fun kv => if kv.1 == k then (k, v) else kv)).find?
      (fun kv => kv.1 == k) = some (k, v) := by
  induction m with
  | nil => simp at hany
  | cons kv rest ih =>
    cases hk : (kv.1 == k) with
    | true =>
      simp only [List.map_cons, hk, if_true]
      rw [List.find?_cons_of_pos _ (by simp)]
    | false =>
      simp only [List.any_cons, hk, Bool.false_or] at hany
      simp only [List.map_cons, hk, Bool.false_eq_true, if_false]
      rw [List.find?_cons_of_neg _ (by simp [hk])]
      exact ih hany

theorem find?_upsert_other (m : JsonStrObj) (k v q : Str) (hq : ¬ (q = k)) :
    (m.map (fun kv => if kv.1 == k then (k, v) else kv)).find?
      (fun kv => kv.1 == q) = m.find? (fun kv => kv.1 == q) := by
  have hkq : (k == q) = false := by
    simp only [beq_eq_false_iff_ne, ne_eq]
    intro h
    exact hq h.symm
  induction m with
  | nil => simp
  | cons kv rest ih =>
    cases hk : (kv.1 == k) with
    | true =>
      have hkv : kv.1 = k := by simpa using hk
      have hkvq : (kv.1 == q) = false := by rw [hkv]; exact hkq
      simp only [List.map_cons, hk, if_true]
      rw [List.find?_cons_of_neg _ (by simp [hkq]),
          List.find?_cons_of_neg _ (by simp [hkvq])]
      exact ih
    | false =>
      simp only [List.map_cons, hk, Bool.false_eq_true, if_false]
      cases hkvq : (kv.1 == q) with
      | true =>
        rw [List.find?_cons_of_pos _ (by simp [hkvq]),
            List.find?_cons_of_pos _ (by simp [hkvq])]
      | false =>
        rw [List.find?_cons_of_neg _ (by simp [hkvq]),
            List.find?_cons_of_neg _ (by simp [hkvq])]
        exact ih

theorem jsonObjGet_set_self (m : JsonStrObj) (k v : Str) :
    jsonObjGet (jsonObjSet m k v) k = some v := by
  unfold jsonObjSet jsonObjGet
  by_cases hany : m.any (fun kv => kv.1 == k) = true
  · simp only [hany, if_true]
    rw [find?_upsert_self m k v hany]
    rfl
  · rw [if_neg hany, List.find?_append]
    have hnone : m.find? (fun kv => kv.1 == k) = none := by
      rw [List.find?_eq_none]
      intro x hx hcontra
      exact hany (List.any_eq_true.mpr ⟨x, hx, hcontra⟩)
    rw [hnone, List.find?_cons_of_pos _ (by simp)]
    rfl

theorem jsonObjGet_set_other (m : JsonStrObj) (k v q : Str) (hq : ¬ (q = k)) :
    jsonObjGet (jsonObjSet m k v) q = jsonObjGet m q := by
  have hkq : (k == q) = false := by
    simp only [beq_eq_false_iff_ne, ne_eq]
    intro h
    exact hq h.symm
  unfold jsonObjSet jsonObjGet
  by_cases hany : m.any (fun kv => kv.1 == k) = true
  · simp only [hany, if_true]
    rw [find?_upsert_other m k v q hq]
  · rw [if_neg hany, List.find?_append]
    rw [List.find?_cons_of_neg _ (by simp [hkq])]
    cases hfind : m.find? (fun kv => kv.1 == q) with
    | some kv => rfl
    | none => rfl

theorem headersArtifact_fold (hs : List (Str × Str)) (acc : JsonStrObj) (k : Str) :
    jsonObjGet (hs.foldl (fun m kv => jsonObjSet m kv.1 kv.2) acc) k =
      (match hs.reverse.find? (fun kv => kv.1 == k) with
       | some kv => some kv.2
       | none => jsonObjGet acc k) := by
  induction hs generalizing acc with
  | nil => simp
  | cons kv rest ih =>
    simp only [List.foldl_cons, List.reverse_cons, List.find?_append]
    rw [ih]
    cases hfind : rest.reverse.find? (fun kv => kv.1 == k) with
    | some kv2 => simp [hfind]
    | none =>
      simp only [hfind]
      by_cases hk : (kv.1 == k) = true
      · have hkv : kv.1 = k := by simpa using hk
        simp only [List.find?, hk]
        rw [hkv, jsonObjGet_set_self]
        simp
      · simp only [List.find?, hk]
        rw [jsonObjGet_set_other]
        · simp
        · intro h
          rw [h] at hk
          simp at hk

/-! ## C5: the persisted `.headers` object keeps the last value -/

/-- C5 counterexample: a response that received `A: 1` then `A: 2`.  The
claim says the `.headers` object maps `A` to the first value `1`; the code
(`headers[key] = val` in received order) stores the last value `2`. -/
theorem C5_counterexample :
    jsonObjGet
        (CacheManager.headersArtifact
          ((HttpResponse.empty.AddHeaderLine ('A' :: ':' :: ' ' :: '1' :: [])).AddHeaderLine
            ('A' :: ':' :: ' ' :: '2' :: [])))
        ('A' :: []) ≠ some ('1' :: []) ∧
    jsonObjGet
        (CacheManager.headersArtifact
          ((HttpResponse.empty.AddHeaderLine ('A' :: ':' :: ' ' :: '1' :: [])).AddHeaderLine
            ('A' :: ':' :: ' ' :: '2' :: [])))
        ('A' :: []) = some ('2' :: []) := by
  constructor
  · decide
  · decide

theorem headersArtifact_lookup (r : HttpResponse) (k : Str) :
    jsonObjGet (CacheManager.headersArtifact r) k =
      (r.headers.reverse.find? (fun kv => kv.1 == k)).map (·.2) := by
  unfold CacheManager.headersArtifact
  rw [headersArtifact_fold]
  cases hfind : r.headers.reverse.find? (fun kv => kv.1 == k) with
  | some kv => simp
  | none => simp [jsonObjGet, List.find?]

/-- C5 amended: `Store(url, response)` writes a `.headers` JSON object that
maps each received header name (case-sensitively) to the value of its *last*
occurrence in the response's ordered header list, not its first. -/
theorem C5_headers_last_value (r : HttpResponse) (k : Str) :
    jsonObjGet (CacheManager.headersArtifact r) k =
      (r.headers.reverse.find? (fun kv => kv.1 == k)).map (·.2) :=
  headersArtifact_lookup r k

/-! ## C10: the synthetic X-HTTP-Status header -/

/-- C10: for any response accumulated from any received header lines,
`SetStatusCode` appends the synthetic `("X-HTTP-Status", decimal status)`
pair to the ordered header list, so `GetHeaders()` contains it and the
persisted `.headers` object maps `X-HTTP-Status` to the decimal status —
an entry that never came from a received line. -/
theorem C10_x_http_status (lines : List Str) (s : Int) :
    (((lines.foldl HttpResponse.AddHeaderLine HttpResponse.empty).SetStatusCode s).GetHeaders =
      (lines.foldl HttpResponse.AddHeaderLine HttpResponse.empty).GetHeaders ++
        [(xHttpStatus, intDecimal s)]) ∧
    (xHttpStatus, intDecimal s) ∈
      ((lines.foldl HttpResponse.AddHeaderLine HttpResponse.empty).SetStatusCode s).GetHeaders ∧
    jsonObjGet
        (CacheManager.headersArtifact
          ((lines.foldl HttpResponse.AddHeaderLine HttpResponse.empty).SetStatusCode s))
        xHttpStatus = some (intDecimal s) := by
  refine ⟨rfl, by simp [HttpResponse.SetStatusCode, HttpResponse.GetHeaders], ?_⟩
  rw [headersArtifact_lookup]
  simp [HttpResponse.SetStatusCode, List.find?]

/-! ## C9: script failure modes yield no result and no stored artifact -/

/-- C9: when the per-domain script invocation throws, or returns fewer than
one value, or its first return value is not a table, `LuaProcessor::Process`
returns `nullopt`, and the crawl step stores no structured result. -/
theorem C9_script_failure_no_store (dir : Str) (jfs : JsonFS) (u : URL)
    (domainMatches : Bool) (r : SolResult)
    (hbad : (∃ msg, r = .err msg) ∨ r = .ok [] ∨
      (∃ v vs, r = .ok (v :: vs) ∧ ∀ es, v ≠ .table es)) :
    LuaProcessor.Process domainMatches r = none ∧
    ProcessAndStore dir jfs u domainMatches r = jfs := by
  have hnone : LuaProcessor.Process domainMatches r = none := by
    unfold LuaProcessor.Process
    cases domainMatches with
    | false => rfl
    | true =>
      rcases hbad with ⟨msg, rfl⟩ | rfl | ⟨v, vs, rfl, hv⟩
      · rfl
      · rfl
      · cases v with
        | table es => exact absurd rfl (hv es)
        | nil => rfl
        | boolean b => rfl
        | num n => rfl
        | str s => rfl
        | other => rfl
  refine ⟨hnone, ?_⟩
  unfold ProcessAndStore
  rw [hnone]

/-- Witness for C9: a script returning a bare number. -/
theorem C9_script_failure_no_store_witness :
    LuaProcessor.Process true (.ok [.num 3]) = none ∧
    ProcessAndStore [] [] URL.empty true (.ok [.num 3]) = [] :=
  C9_script_failure_no_store [] [] URL.empty true (.ok [.num 3])
    (Or.inr (Or.inr ⟨.num 3, [], rfl, by intro es h; cases h⟩))

/-! ## The digest: 64 lowercase hex characters, always -/

theorem compressRound_length (w : List Nat) (st : List Nat) (t : Nat) :
    (compressRound w st t).length = st.length := by
  unfold compressRound
  split
  · simp_all
  · rfl

theorem foldl_compressRound_length (w : List Nat) (l : List Nat) (st : List Nat) :
    (l.foldl (compressRound w) st).length = st.length := by
  induction l generalizing st with
  | nil => rfl
  | cons t rest ih => simp [List.foldl_cons, ih, compressRound_length]

theorem compress_length (h : List Nat) (block : List Nat) (hl : h.length = 8) :
    (compress h block).length = 8 := by
  unfold compress
  rw [List.length_map, List.length_zip, foldl_compressRound_length, hl]
  simp

theorem foldl_compress_length (blocks : List (List Nat)) (h : List Nat)
    (hl : h.length = 8) : (blocks.foldl compress h).length = 8 := by
  induction blocks generalizing h with
  | nil => exact hl
  | cons b rest ih => exact ih _ (compress_length h b hl)

theorem sha256Words_length (bytes : List Nat) : (sha256Words bytes).length = 8 :=
  foldl_compress_length _ _ rfl

theorem flatten_map_const_length {α : Type} (f : α → List Char) (k : Nat)
    (hf : ∀ a, (f a).length = k) (l : List α) :
    ((l.map f).flatten).length = k * l.length := by
  induction l with
  | nil => simp
  | cons a rest ih =>
    simp [List.map_cons, List.flatten_cons, ih, hf a]
    ring

theorem flatten_map_const_length_nat (f : Nat → List Nat) (k : Nat)
    (hf : ∀ a, (f a).length = k) (l : List Nat) :
    ((l.map f).flatten).length = k * l.length := by
  induction l with
  | nil => simp
  | cons a rest ih =>
    simp [List.map_cons, List.flatten_cons, ih, hf a]
    ring

theorem sha256Hex_length (bytes : List Nat) : (sha256Hex bytes).length = 64 := by
  unfold sha256Hex
  rw [flatten_map_const_length byteHex 2 (fun a => rfl)]
  rw [flatten_map_const_length_nat wordBytes 4 (fun a => rfl)]
  rw [sha256Words_length]

theorem getSha256_length (u : URL) : (URL.GetSha256 u).length = 64 :=
  sha256Hex_length _

/-! ## Cache filesystem helpers -/

theorem fs_find?_upsert_self (m : FS) (p : Str) (e : FSEntry)
    (hany : m.any (fun kv => kv.1 == p) = true) :
    (m.map (fun kv => if kv.1 == p then (p, e) else kv)).find?
      (fun kv => kv.1 == p) = some (p, e) := by
  induction m with
  | nil => simp at hany
  | cons kv rest ih =>
    cases hk : (kv.1 == p) with
    | true =>
      simp only [List.map_cons, hk, if_true]
      rw [List.find?_cons_of_pos _ (by simp)]
    | false =>
      simp only [List.any_cons, hk, Bool.false_or] at hany
      simp only [List.map_cons, hk, Bool.false_eq_true, if_false]
      rw [List.find?_cons_of_neg _ (by simp [hk])]
      exact ih hany

theorem fs_find?_upsert_other (m : FS) (p q : Str) (e : FSEntry) (hq : ¬ (q = p)) :
    (m.map (fun kv => if kv.1 == p then (p, e) else kv)).find?
      (fun kv => kv.1 == q) = m.find? (fun kv => kv.1 == q) := by
  have hpq : (p == q) = false := by
    simp only [beq_eq_false_iff_ne, ne_eq]
    intro h
    exact hq h.symm
  induction m with
  | nil => simp
  | cons kv rest ih =>
    cases hk : (kv.1 == p) with
    | true =>
      have hkv : kv.1 = p := by simpa using hk
      have hkvq : (kv.1 == q) = false := by rw [hkv]; exact hpq
      simp only [List.map_cons, hk, if_true]
      rw [List.find?_cons_of_neg _ (by simp [hpq]),
          List.find?_cons_of_neg _ (by simp [hkvq])]
      exact ih
    | false =>
      simp only [List.map_cons, hk, Bool.false_eq_true, if_false]
      cases hkvq : (kv.1 == q) with
      | true =>
        rw [List.find?_cons_of_pos _ (by simp [hkvq]),
            List.find?_cons_of_pos _ (by simp [hkvq])]
      | false =>
        rw [List.find?_cons_of_neg _ (by simp [hkvq]),
            List.find?_cons_of_neg _ (by simp [hkvq])]
        exact ih

theorem fsLookup_write_self (fs : FS) (p : Str) (e : FSEntry) :
    fsLookup (fsWrite fs p e) p = some e := by
  unfold fsWrite fsLookup
  by_cases hany : fs.any (fun kv => kv.1 == p) = true
  · simp only [hany, if_true]
    rw [fs_find?_upsert_self fs p e hany]
    rfl
  · rw [if_neg hany, List.find?_append]
    have hnone : fs.find? (fun kv => kv.1 == p) = none := by
      rw [List.find?_eq_none]
      intro x hx hcontra
      exact hany (List.any_eq_true.mpr ⟨x, hx, hcontra⟩)
    rw [hnone, List.find?_cons_of_pos _ (by simp)]
    rfl

theorem fsLookup_write_other (fs : FS) (p q : Str) (e : FSEntry) (hq : ¬ (q = p)) :
    fsLookup (fsWrite fs p e) q = fsLookup fs q := by
  have hpq : (p == q) = false := by
    simp only [beq_eq_false_iff_ne, ne_eq]
    intro h
    exact hq h.symm
  unfold fsWrite fsLookup
  by_cases hany : fs.any (fun kv => kv.1 == p) = true
  · simp only [hany, if_true]
    rw [fs_find?_upsert_other fs p q e hq]
  · rw [if_neg hany, List.find?_append]
    rw [List.find?_cons_of_neg _ (by simp [hpq])]
    cases hfind : fs.find? (fun kv => kv.1 == q) with
    | some kv => rfl
    | none => rfl

theorem fsLookup_erase_other (fs : FS) (p q : Str) (hq : ¬ (q = p)) :
    fsLookup (fsErase fs p) q = fsLookup fs q := by
  unfold fsErase fsLookup
  induction fs with
  | nil => simp
  | cons kv rest ih =>
    cases hk : (kv.1 == p) with
    | true =>
      have hkv : kv.1 = p := by simpa using hk
      have hkvq : (kv.1 == q) = false := by
        rw [hkv]
        simp only [beq_eq_false_iff_ne, ne_eq]
        intro h
        exact hq h.symm
      simp only [List.filter_cons, hk, Bool.not_true, Bool.false_eq_true, if_false]
      rw [List.find?_cons_of_neg _ (by simp [hkvq])]
      exact ih
    | false =>
      simp only [List.filter_cons, hk, Bool.not_false, if_true]
      cases hkvq : (kv.1 == q) with
      | true =>
        rw [List.find?_cons_of_pos _ (by simp [hkvq]),
            List.find?_cons_of_pos _ (by simp [hkvq])]
      | false =>
        rw [List.find?_cons_of_neg _ (by simp [hkvq]),
            List.find?_cons_of_neg _ (by simp [hkvq])]
        exact ih

/-- The temporary path of any URL is never the body path of any URL: body
paths under the same directory end in a 64-character digest, temporary paths
in 68 characters. -/
theorem bodyPath_ne_tmpOf (dir : Str) (u v : URL) :
    bodyPath dir v ≠ tmpOf (bodyPath dir u) := by
  intro h
  have hlen := congrArg List.length h
  simp only [bodyPath, tmpOf, dotTmp, List.length_append, List.length_cons,
    getSha256_length] at hlen
  omega

/-! ## C2: store-then-fetch round trip -/

/-- C2: after `Store(url, b)` completes, `Fetch(url)` returns exactly `b`
whenever the entry's age does not exceed the configured maximum age. -/
theorem C2_store_fetch_roundtrip (dir : Str) (maxAge : Int) (fs : FS) (u : URL)
    (content : Str) (tw now : Int)
    (hfresh : max (now - tw) 0 ≤ maxAge) :
    CacheManager.Fetch dir maxAge (CacheManager.StoreFinal dir fs u content tw) now u =
      some content := by
  unfold CacheManager.Fetch CacheManager.StoreFinal
  rw [fsLookup_write_self]
  have hexp : CacheManager.IsExpired maxAge now tw = false := by
    unfold CacheManager.IsExpired
    simp only [decide_eq_false_iff_not, not_lt]
    exact hfresh
  simp [hexp]

/-- Witness for C2 at a concrete URL, body and clock. -/
theorem C2_store_fetch_roundtrip_witness :
    max ((50 : Int) - 5) 0 ≤ 100 ∧
    CacheManager.Fetch [] 100
      (CacheManager.StoreFinal [] [] (URL.Parse ('h' :: 't' :: 't' :: 'p' :: ':' :: '/' :: '/' :: 'a' :: '/' :: []))
        ('x' :: []) 5) 50
      (URL.Parse ('h' :: 't' :: 't' :: 'p' :: ':' :: '/' :: '/' :: 'a' :: '/' :: [])) = some ('x' :: []) :=
  ⟨by decide,
   C2_store_fetch_roundtrip [] 100 []
     (URL.Parse ('h' :: 't' :: 't' :: 'p' :: ':' :: '/' :: '/' :: 'a' :: '/' :: []))
     ('x' :: []) 5 50 (by decide)⟩

/-! ## C1: atomic writes are never observed half-done -/

/-- C1: while `Store(url, b)` writes `<target>.tmp`, flushes it and renames
it over `<target>`, a concurrent `Fetch` (of any URL, at any time) observes
either exactly the pre-store filesystem or the post-rename result: the
in-progress temporary file is invisible to `Fetch` and no partially written
body can be returned. -/
theorem C1_atomic_store_no_partial (dir : Str) (fs : FS) (u : URL)
    (content : Str) (t : Int) (st : FS)
    (hst : st ∈ CacheManager.StoreTrace dir fs u content t) :
    ∀ (v : URL) (maxAge now : Int),
      CacheManager.Fetch dir maxAge st now v = CacheManager.Fetch dir maxAge fs now v ∨
      st = CacheManager.StoreFinal dir fs u content t := by
  intro v maxAge now
  unfold CacheManager.StoreTrace at hst
  rw [List.cons_append, List.mem_cons, List.mem_append, List.mem_map] at hst
  rcases hst with rfl | ⟨⟨i, hi, rfl⟩ | hfin⟩
  · exact Or.inl rfl
  · left
    unfold CacheManager.Fetch
    rw [fsLookup_write_other fs _ _ _ (bodyPath_ne_tmpOf dir u v)]
  · right
    simpa using hfin

/-- Witness for C1 at a mid-write trace state. -/
theorem C1_atomic_store_no_partial_witness :
    (fsWrite [] (tmpOf (bodyPath [] (URL.Parse ('h' :: 't' :: 't' :: 'p' :: ':' :: '/' :: '/' :: 'a' :: '/' :: []))))
        ⟨('x' :: 'y' :: []).take 1, 5⟩ ∈
      CacheManager.StoreTrace [] [] (URL.Parse ('h' :: 't' :: 't' :: 'p' :: ':' :: '/' :: '/' :: 'a' :: '/' :: []))
        ('x' :: 'y' :: []) 5) ∧
    (CacheManager.Fetch [] 100
        (fsWrite [] (tmpOf (bodyPath [] (URL.Parse ('h' :: 't' :: 't' :: 'p' :: ':' :: '/' :: '/' :: 'a' :: '/' :: []))))
          ⟨('x' :: 'y' :: []).take 1, 5⟩) 50
        (URL.Parse ('h' :: 't' :: 't' :: 'p' :: ':' :: '/' :: '/' :: 'a' :: '/' :: [])) =
      CacheManager.Fetch [] 100 [] 50
        (URL.Parse ('h' :: 't' :: 't' :: 'p' :: ':' :: '/' :: '/' :: 'a' :: '/' :: [])) ∨
      fsWrite [] (tmpOf (bodyPath [] (URL.Parse ('h' :: 't' :: 't' :: 'p' :: ':' :: '/' :: '/' :: 'a' :: '/' :: []))))
          ⟨('x' :: 'y' :: []).take 1, 5⟩ =
        CacheManager.StoreFinal [] [] (URL.Parse ('h' :: 't' :: 't' :: 'p' :: ':' :: '/' :: '/' :: 'a' :: '/' :: []))
          ('x' :: 'y' :: []) 5) :=
  ⟨by decide,
   C1_atomic_store_no_partial [] []
     (URL.Parse ('h' :: 't' :: 't' :: 'p' :: ':' :: '/' :: '/' :: 'a' :: '/' :: []))
     ('x' :: 'y' :: []) 5 _ (by decide) _ 100 50⟩

/-! ## Sorting and dedup of the seed-file batch -/

theorem leStr_total (a b : Str) : leStr a b = true ∨ leStr b a = true := by
  induction a generalizing b with
  | nil => left; rfl
  | cons x xs ih =>
    cases b with
    | nil => right; rfl
    | cons y ys =>
      by_cases hxy : x.toNat < y.toNat
      · left; simp only [leStr]; rw [if_pos hxy]
      · by_cases hyx : y.toNat < x.toNat
        · right; simp only [leStr]; rw [if_pos hyx]
        · rcases ih ys with h | h
          · left; simp only [leStr]; rw [if_neg hxy, if_neg hyx]; exact h
          · right; simp only [leStr]; rw [if_neg hyx, if_neg hxy]; exact h

theorem leStr_antisymm (a b : Str) (hab : leStr a b = true) (hba : leStr b a = true) :
    a = b := by
  induction a generalizing b with
  | nil =>
    cases b with
    | nil => rfl
    | cons y ys => simp [leStr] at hba
  | cons x xs ih =>
    cases b with
    | nil => simp [leStr] at hab
    | cons y ys =>
      by_cases hxy : x.toNat < y.toNat
      · simp only [leStr] at hba
        rw [if_neg (by omega : ¬ y.toNat < x.toNat), if_pos hxy] at hba
        exact absurd hba (by simp)
      · by_cases hyx : y.toNat < x.toNat
        · simp only [leStr] at hab
          rw [if_neg hxy, if_pos hyx] at hab
          exact absurd hab (by simp)
        · have hx : x = y := by
            have hn : x.toNat = y.toNat := by omega
            exact Char.ofNat_toNat x ▸ Char.ofNat_toNat y ▸ congrArg Char.ofNat hn
          subst hx
          simp only [leStr] at hab hba
          rw [if_neg hxy, if_neg hyx] at hab hba
          rw [ih ys hab hba]

theorem leStr_trans (a b c : Str) (hab : leStr a b = true) (hbc : leStr b c = true) :
    leStr a c = true := by
  induction a generalizing b c with
  | nil => rfl
  | cons x xs ih =>
    cases b with
    | nil => simp [leStr] at hab
    | cons y ys =>
      cases c with
      | nil => simp [leStr] at hbc
      | cons z zs =>
        by_cases hxy : x.toNat < y.toNat
        · have hyz : y.toNat ≤ z.toNat := by
            by_cases h1 : y.toNat < z.toNat
            · omega
            · by_cases h2 : z.toNat < y.toNat
              · simp only [leStr] at hbc
                rw [if_neg h1, if_pos h2] at hbc
                exact absurd hbc (by simp)
              · omega
          simp only [leStr]
          rw [if_pos (by omega : x.toNat < z.toNat)]
        · by_cases hyx : y.toNat < x.toNat
          · simp only [leStr] at hab
            rw [if_neg hxy, if_pos hyx] at hab
            exact absurd hab (by simp)
          · simp only [leStr] at hab
            rw [if_neg hxy, if_neg hyx] at hab
            by_cases hyz : y.toNat < z.toNat
            · simp only [leStr]
              rw [if_pos (by omega : x.toNat < z.toNat)]
            · by_cases hzy : z.toNat < y.toNat
              · simp only [leStr] at hbc
                rw [if_neg hyz, if_pos hzy] at hbc
                exact absurd hbc (by simp)
              · simp only [leStr] at hbc
                rw [if_neg hyz, if_neg hzy] at hbc
                simp only [leStr]
                rw [if_neg (by omega : ¬ x.toNat < z.toNat),
                    if_neg (by omega : ¬ z.toNat < x.toNat)]
                exact ih ys zs hab hbc

theorem insertSorted_mem (x y : Str) (l : List Str) :
    y ∈ insertSorted x l ↔ y = x ∨ y ∈ l := by
  induction l with
  | nil => simp [insertSorted]
  | cons a r ih =>
    unfold insertSorted
    by_cases h : leStr x a = true
    · rw [if_pos h]
      simp [List.mem_cons]
    · rw [if_neg h]
      simp only [List.mem_cons, ih]
      tauto

theorem insertSorted_pairwise (x : Str) (l : List Str)
    (hl : l.Pairwise (fun a b => leStr a b = true)) :
    (insertSorted x l).Pairwise (fun a b => leStr a b = true) := by
  induction l with
  | nil => simp [insertSorted]
  | cons a r ih =>
    rw [List.pairwise_cons] at hl
    unfold insertSorted
    by_cases h : leStr x a = true
    · rw [if_pos h]
      rw [List.pairwise_cons]
      refine ⟨?_, List.pairwise_cons.mpr hl⟩
      intro b hb
      rcases List.mem_cons.mp hb with rfl | hb
      · exact h
      · exact leStr_trans x a b h (hl.1 b hb)
    · rw [if_neg h]
      rw [List.pairwise_cons]
      refine ⟨?_, ih hl.2⟩
      intro b hb
      rcases (insertSorted_mem x b r).mp hb with rfl | hb
      · rcases leStr_total a b with h1 | h1
        · exact h1
        · exact absurd h1 h
      · exact hl.1 b hb

theorem sortStrs_pairwise (l : List Str) :
    (sortStrs l).Pairwise (fun a b => leStr a b = true) := by
  induction l with
  | nil => simp [sortStrs]
  | cons a r ih => exact insertSorted_pairwise a _ ih

theorem sortStrs_mem (x : Str) (l : List Str) : x ∈ sortStrs l ↔ x ∈ l := by
  induction l with
  | nil => simp [sortStrs]
  | cons a r ih =>
    unfold sortStrs at ih ⊢
    rw [List.foldr_cons, insertSorted_mem, ih]
    simp

theorem uniqGo_subset (prev x : Str) (l : List Str) (hx : x ∈ uniqGo prev l) :
    x ∈ l := by
  induction l generalizing prev with
  | nil => simp [uniqGo] at hx
  | cons b r ih =>
    unfold uniqGo at hx
    by_cases h : prev = b
    · rw [if_pos h] at hx
      exact List.mem_cons_of_mem _ (ih prev hx)
    · rw [if_neg h] at hx
      rcases List.mem_cons.mp hx with rfl | hx
      · simp
      · exact List.mem_cons_of_mem _ (ih b hx)

theorem uniqGo_mem (prev x : Str) (l : List Str) (hne : x ≠ prev) (hx : x ∈ l) :
    x ∈ uniqGo prev l := by
  induction l generalizing prev with
  | nil => simp at hx
  | cons b r ih =>
    unfold uniqGo
    by_cases h : prev = b
    · rw [if_pos h]
      rcases List.mem_cons.mp hx with rfl | hx
      · exact absurd h.symm hne
      · exact ih prev hne hx
    · rw [if_neg h]
      rcases List.mem_cons.mp hx with rfl | hx
      · exact List.mem_cons_self _ _
      · by_cases hxb : x = b
        · subst hxb
          exact List.mem_cons_self _ _
        · exact List.mem_cons_of_mem _ (ih b hxb hx)

theorem uniqAdj_mem (x : Str) (l : List Str) : x ∈ uniqAdj l ↔ x ∈ l := by
  cases l with
  | nil => simp [uniqAdj]
  | cons a r =>
    unfold uniqAdj
    constructor
    · intro hx
      rcases List.mem_cons.mp hx with rfl | hx
      · simp
      · exact List.mem_cons_of_mem _ (uniqGo_subset a x r hx)
    · intro hx
      rcases List.mem_cons.mp hx with rfl | hx
      · simp
      · by_cases hxa : x = a
        · simp [hxa]
        · exact List.mem_cons_of_mem _ (uniqGo_mem a x r hxa hx)

theorem uniqGo_pairwise (prev : Str) (l : List Str)
    (hl : l.Pairwise (fun a b => leStr a b = true))
    (hall : ∀ x ∈ l, leStr prev x = true) :
    (uniqGo prev l).Pairwise ltStr ∧ ∀ x ∈ uniqGo prev l, ltStr prev x := by
  induction l generalizing prev with
  | nil => simp [uniqGo]
  | cons b r ih =>
    rw [List.pairwise_cons] at hl
    have hprevb : leStr prev b = true := hall b (by simp)
    unfold uniqGo
    by_cases h : prev = b
    · rw [if_pos h]
      subst h
      exact ih prev hl.2 hl.1
    · rw [if_neg h]
      obtain ⟨hpw, hgt⟩ := ih b hl.2 hl.1
      constructor
      · rw [List.pairwise_cons]
        exact ⟨hgt, hpw⟩
      · intro x hx
        rcases List.mem_cons.mp hx with rfl | hx
        · exact ⟨hprevb, h⟩
        · obtain ⟨hbx, hbnex⟩ := hgt x hx
          refine ⟨leStr_trans prev b x hprevb hbx, ?_⟩
          intro hcontra
          subst hcontra
          exact h (leStr_antisymm prev b hprevb hbx)

theorem uniqAdj_pairwise (l : List Str)
    (hl : l.Pairwise (fun a b => leStr a b = true)) :
    (uniqAdj l).Pairwise ltStr := by
  cases l with
  | nil => simp [uniqAdj]
  | cons a r =>
    rw [List.pairwise_cons] at hl
    unfold uniqAdj
    rw [List.pairwise_cons]
    obtain ⟨hpw, hgt⟩ := uniqGo_pairwise a r hl.2 hl.1
    exact ⟨hgt, hpw⟩

/-! ## Newline splitting and line counting -/

theorem splitGo_no_sep (ch : Char) (cur x : Str) (hx : ch ∉ x) :
    splitGo ch cur x = [cur.reverse ++ x] := by
  induction x generalizing cur with
  | nil => simp [splitGo]
  | cons c t ih =>
    have hc : ¬ (c = ch) := fun h => hx (h ▸ List.mem_cons_self c t)
    unfold splitGo
    rw [if_neg hc, ih (c :: cur) (fun h => hx (List.mem_cons_of_mem c h))]
    simp

theorem splitGo_cons_sep (ch : Char) (cur rest : Str) :
    splitGo ch cur (ch :: rest) = cur.reverse :: splitGo ch [] rest := by
  simp [splitGo]

theorem splitGo_cons_nosep (ch c : Char) (cur rest : Str) (hc : ¬ (c = ch)) :
    splitGo ch cur (c :: rest) = splitGo ch (c :: cur) rest := by
  simp [splitGo, hc]

theorem splitGo_append_sep (ch : Char) (b : Str) (a : Str) (cur : Str) :
    splitGo ch cur (a ++ ch :: b) = splitGo ch cur a ++ splitOnCh ch b := by
  induction a generalizing cur with
  | nil =>
    rw [List.nil_append, splitGo_cons_sep]
    rfl
  | cons c a' ih =>
    by_cases hc : c = ch
    · subst hc
      rw [List.cons_append, splitGo_cons_sep, splitGo_cons_sep, ih []]
      rfl
    · rw [List.cons_append, splitGo_cons_nosep ch c cur _ hc,
        splitGo_cons_nosep ch c cur a' hc]
      exact ih (c :: cur)

theorem splitOnCh_append_sep (ch : Char) (a b : Str) :
    splitOnCh ch (a ++ ch :: b) = splitOnCh ch a ++ splitOnCh ch b :=
  splitGo_append_sep ch b a []

theorem splitOnCh_no_sep (ch : Char) (x : Str) (hx : ch ∉ x) :
    splitOnCh ch x = [x] := by
  unfold splitOnCh
  rw [splitGo_no_sep ch [] x hx]
  rfl

theorem splitNL_block (A : List Str) (hA : ∀ l ∈ A, '\n' ∉ l) :
    splitOnCh '\n' ((A.map (fun l => l ++ ['\n'])).flatten) = A ++ [[]] := by
  induction A with
  | nil => simp [splitOnCh, splitGo]
  | cons a A' ih =>
    have : (((a :: A').map (fun l => l ++ ['\n'])).flatten) =
        a ++ '\n' :: ((A'.map (fun l => l ++ ['\n'])).flatten) := by
      simp
    rw [this, splitOnCh_append_sep, splitOnCh_no_sep '\n' a (hA a (by simp)),
      ih (fun l hl => hA l (List.mem_cons_of_mem a hl))]
    simp

theorem countLine_append_sep (x : Str) (a b : Str) :
    countLine x (a ++ '\n' :: b) = countLine x a + countLine x b := by
  unfold countLine
  rw [splitOnCh_append_sep, List.filter_append, List.length_append]

theorem countLine_nil (x : Str) (hx : x ≠ []) : countLine x [] = 0 := by
  cases x with
  | nil => exact absurd rfl hx
  | cons c t => rfl

theorem countLine_block (A : List Str) (x : Str) (hA : ∀ l ∈ A, '\n' ∉ l)
    (hx : x ≠ []) :
    countLine x ((A.map (fun l => l ++ ['\n'])).flatten) =
      (A.filter (fun l => l == x)).length := by
  unfold countLine
  rw [splitNL_block A hA, List.filter_append, List.length_append]
  have hz : ([([] : Str)].filter (fun l => l == x)).length = 0 := by
    cases x with
    | nil => exact absurd rfl hx
    | cons c t => rfl
  omega

theorem filter_beq_length_one (A : List Str) (x : Str) (hnd : A.Nodup)
    (hx : x ∈ A) : (A.filter (fun l => l == x)).length = 1 := by
  induction A with
  | nil => simp at hx
  | cons a r ih =>
    rw [List.nodup_cons] at hnd
    rcases List.mem_cons.mp hx with rfl | hx2
    · have hr : r.filter (fun l => l == x) = [] := by
        rw [List.filter_eq_nil_iff]
        intro b hb
        simp only [beq_iff_eq]
        intro hcontra
        exact hnd.1 (hcontra ▸ hb)
      simp [List.filter_cons, hr]
    · have ha : ¬ ((a == x) = true) := by
        simp only [beq_iff_eq]
        intro hcontra
        exact hnd.1 (hcontra ▸ hx2)
      simp only [List.filter_cons, ha, if_false]
      exact ih hnd.2 hx2

theorem filter_beq_length_zero (A : List Str) (x : Str) (hx : x ∉ A) :
    (A.filter (fun l => l == x)).length = 0 := by
  have : A.filter (fun l => l == x) = [] := by
    rw [List.filter_eq_nil_iff]
    intro b hb
    simp only [beq_iff_eq]
    intro hcontra
    exact hx (hcontra ▸ hb)
  rw [this]
  rfl

theorem sanitizeLine_no_nl (s : Str) : '\n' ∉ sanitizeLine s := by
  intro h
  have := List.of_mem_filter h
  simp at this

theorem sanitizeLine_no_cr (s : Str) : '\r' ∉ sanitizeLine s := by
  intro h
  have := List.of_mem_filter h
  simp at this

/-- The appended-batch lines: sanitized, nonempty, sorted, deduplicated. -/
theorem batchLines_spec (U : List Str) :
    (uniqAdj (sortStrs ((U.map sanitizeLine).filter (fun s => !s.isEmpty)))).Pairwise ltStr ∧
    (∀ y, y ∈ uniqAdj (sortStrs ((U.map sanitizeLine).filter (fun s => !s.isEmpty))) ↔
      ((∃ u ∈ U, sanitizeLine u = y) ∧ y ≠ [])) := by
  constructor
  · exact uniqAdj_pairwise _ (sortStrs_pairwise _)
  · intro y
    rw [uniqAdj_mem, sortStrs_mem, List.mem_filter]
    constructor
    · rintro ⟨hmap, hne⟩
      obtain ⟨u, hu, rfl⟩ := List.mem_map.mp hmap
      refine ⟨⟨u, hu, rfl⟩, ?_⟩
      simpa using hne
    · rintro ⟨⟨u, hu, rfl⟩, hne⟩
      refine ⟨List.mem_map.mpr ⟨u, hu, rfl⟩, ?_⟩
      simpa using hne

/-- One `Store` call changes the number of occurrences of a nonempty line
`x` by exactly one when `x` is in the sanitized batch, and zero otherwise. -/
theorem storeList_countLine (f : Str) (U : List Str) (x : Str) (hx : x ≠ []) :
    countLine x (URLManager.StoreList f U) = countLine x f +
      (if x ∈ uniqAdj (sortStrs ((U.map sanitizeLine).filter (fun s => !s.isEmpty)))
       then 1 else 0) := by
  set A := uniqAdj (sortStrs ((U.map sanitizeLine).filter (fun s => !s.isEmpty))) with hA
  have hAnl : ∀ l ∈ A, '\n' ∉ l := by
    intro l hl
    have := ((batchLines_spec U).2 l).mp (hA ▸ hl)
    obtain ⟨⟨u, hu, rfl⟩, _⟩ := this
    exact sanitizeLine_no_nl u
  have hnd : A.Nodup := by
    have := (batchLines_spec U).1
    exact List.Pairwise.imp (fun h => h.2) (hA ▸ this)
  have hcount : countLine x ((A.map (fun l => l ++ ['\n'])).flatten) =
      (if x ∈ A then 1 else 0) := by
    rw [countLine_block A x hAnl hx]
    by_cases hmem : x ∈ A
    · rw [if_pos hmem]
      exact filter_beq_length_one A x hnd hmem
    · rw [if_neg hmem]
      exact filter_beq_length_zero A x hmem
  by_cases hU : U = []
  · have hS : URLManager.StoreList f U = f := by
      unfold URLManager.StoreList
      rw [if_pos hU]
    have hAe : A = [] := by
      rw [hA, hU]
      rfl
    rw [hS, hAe]
    simp
  · by_cases hlines : (U.map sanitizeLine).filter (fun s => !s.isEmpty) = []
    · have hS : URLManager.StoreList f U = f := by
        simp [URLManager.StoreList, if_neg hU, hlines]
      have hAe : A = [] := by
        rw [hA, hlines]
        rfl
      rw [hS, hAe]
      simp
    · have hS : URLManager.StoreList f U =
          f ++ (if f ≠ [] ∧ f.getLast? ≠ some '\n' then ['\n'] else []) ++
            ((A.map (fun l => l ++ ['\n'])).flatten) := by
        simp only [URLManager.StoreList, if_neg hU, if_neg hlines, hA]
      rw [hS]
      by_cases hf : f = []
      · subst hf
        rw [if_neg (by simp : ¬(([] : Str) ≠ [] ∧ ([] : Str).getLast? ≠ some '\n'))]
        rw [countLine_nil x hx, List.nil_append, List.nil_append, hcount]
        simp
      · by_cases hlast : f.getLast? = some '\n'
        · rw [if_neg (by simp [hlast] : ¬(f ≠ [] ∧ f.getLast? ≠ some '\n'))]
          obtain ⟨f2, rfl⟩ : ∃ f2, f = f2 ++ ['\n'] := by
            refine ⟨f.dropLast, ?_⟩
            have h1 := List.dropLast_append_getLast hf
            have h2 : f.getLast hf = '\n' := by
              have h3 := List.getLast?_eq_getLast f hf
              rw [hlast] at h3
              exact (Option.some.injEq _ _).mp h3.symm
            rw [← h2]
            exact h1.symm
          rw [List.append_nil, List.append_assoc, List.singleton_append,
            countLine_append_sep, countLine_append_sep, hcount,
            countLine_nil x hx]
          omega
        · rw [if_pos ⟨hf, hlast⟩, List.append_assoc, List.singleton_append,
            countLine_append_sep, hcount]

/-! ## C6: the seed-file append -/

/-- C6 counterexample: with an empty file and the single-URL batch
`{"http://a/"}`, two successive `Store` calls leave the URL twice in the
file — more than "at most once more than before the first call". -/
theorem C6_counterexample :
    countLine ('h' :: 't' :: 't' :: 'p' :: ':' :: '/' :: '/' :: 'a' :: '/' :: [])
        (URLManager.StoreList
          (URLManager.StoreList []
            [('h' :: 't' :: 't' :: 'p' :: ':' :: '/' :: '/' :: 'a' :: '/' :: [])])
          [('h' :: 't' :: 't' :: 'p' :: ':' :: '/' :: '/' :: 'a' :: '/' :: [])]) = 2 ∧
    ¬ (countLine ('h' :: 't' :: 't' :: 'p' :: ':' :: '/' :: '/' :: 'a' :: '/' :: [])
        (URLManager.StoreList
          (URLManager.StoreList []
            [('h' :: 't' :: 't' :: 'p' :: ':' :: '/' :: '/' :: 'a' :: '/' :: [])])
          [('h' :: 't' :: 't' :: 'p' :: ':' :: '/' :: '/' :: 'a' :: '/' :: [])]) ≤
      countLine ('h' :: 't' :: 't' :: 'p' :: ':' :: '/' :: '/' :: 'a' :: '/' :: []) [] + 1) := by
  constructor
  · decide
  · decide

/-- C6 amended: `Store(domain, U)` appends a block of lines that is
deduplicated, strictly sorted and newline-sanitized, with a leading newline
iff the existing file is nonempty and does not end in one — but `Store` never
deduplicates against the existing file contents, so calling it twice with the
same `U` adds each nonempty sanitized URL of `U` exactly *twice* (once per
call), not at most once. -/
theorem C6_seed_store_append (f : Str) (U : List Str) (x : Str)
    (hx : ∃ u ∈ U, sanitizeLine u = x) (hxne : x ≠ []) :
    (∃ A : List Str,
      URLManager.StoreList f U =
        f ++ (if f ≠ [] ∧ f.getLast? ≠ some '\n' then ['\n'] else []) ++
          (A.map (fun l => l ++ ['\n'])).flatten ∧
      A.Pairwise ltStr ∧
      (∀ y, y ∈ A ↔ ((∃ u ∈ U, sanitizeLine u = y) ∧ y ≠ []))) ∧
    countLine x (URLManager.StoreList (URLManager.StoreList f U) U) =
      countLine x f + 2 := by
  have hU : U ≠ [] := by
    obtain ⟨u, hu, _⟩ := hx
    intro h
    rw [h] at hu
    simp at hu
  have hmem : x ∈ uniqAdj (sortStrs ((U.map sanitizeLine).filter (fun s => !s.isEmpty))) := by
    rw [((batchLines_spec U).2 x)]
    exact ⟨hx, hxne⟩
  have hlines : (U.map sanitizeLine).filter (fun s => !s.isEmpty) ≠ [] := by
    intro h
    rw [uniqAdj_mem, sortStrs_mem, h] at hmem
    simp at hmem
  constructor
  · refine ⟨uniqAdj (sortStrs ((U.map sanitizeLine).filter (fun s => !s.isEmpty))), ?_,
      (batchLines_spec U).1, (batchLines_spec U).2⟩
    simp only [URLManager.StoreList, if_neg hU, if_neg hlines]
  · rw [storeList_countLine _ U x hxne, storeList_countLine f U x hxne,
      if_pos hmem]

/-- Witness for C6 at a concrete file and batch. -/
theorem C6_seed_store_append_witness :
    (∃ u ∈ [('h' :: 't' :: 't' :: 'p' :: ':' :: '/' :: '/' :: 'a' :: '/' :: [])],
        sanitizeLine u = ('h' :: 't' :: 't' :: 'p' :: ':' :: '/' :: '/' :: 'a' :: '/' :: [])) ∧
    ('h' :: 't' :: 't' :: 'p' :: ':' :: '/' :: '/' :: 'a' :: '/' :: []) ≠ ([] : Str) ∧
    countLine ('h' :: 't' :: 't' :: 'p' :: ':' :: '/' :: '/' :: 'a' :: '/' :: [])
        (URLManager.StoreList
          (URLManager.StoreList ('o' :: 'l' :: 'd' :: [])
            [('h' :: 't' :: 't' :: 'p' :: ':' :: '/' :: '/' :: 'a' :: '/' :: [])])
          [('h' :: 't' :: 't' :: 'p' :: ':' :: '/' :: '/' :: 'a' :: '/' :: [])]) =
      countLine ('h' :: 't' :: 't' :: 'p' :: ':' :: '/' :: '/' :: 'a' :: '/' :: [])
        ('o' :: 'l' :: 'd' :: []) + 2 :=
  ⟨⟨('h' :: 't' :: 't' :: 'p' :: ':' :: '/' :: '/' :: 'a' :: '/' :: []), by simp, by decide⟩, by decide,
   (C6_seed_store_append ('o' :: 'l' :: 'd' :: [])
     [('h' :: 't' :: 't' :: 'p' :: ':' :: '/' :: '/' :: 'a' :: '/' :: [])]
     ('h' :: 't' :: 't' :: 'p' :: ':' :: '/' :: '/' :: 'a' :: '/' :: [])
     ⟨('h' :: 't' :: 't' :: 'p' :: ':' :: '/' :: '/' :: 'a' :: '/' :: []), by simp, by decide⟩ (by decide)).2⟩

/-! ## C4: the host is stored verbatim; lowercasing happens in derived views -/

/-- C4 counterexample: parsing `http://EXAMPLE.com/` leaves the uppercase
`E` in `GetHost()` (and hence in the canonical string), contradicting
"the host component is lowercased after parse". -/
theorem C4_counterexample :
    'E' ∈ (URL.Parse ('h' :: 't' :: 't' :: 'p' :: ':' :: '/' :: '/' :: 'E' :: 'X' :: 'A' :: 'M' :: 'P' :: 'L' :: 'E' :: '.' :: 'c' :: 'o' :: 'm' :: '/' :: [])).GetHost ∧
    'E' ∈ URL.ToString (URL.Parse ('h' :: 't' :: 't' :: 'p' :: ':' :: '/' :: '/' :: 'E' :: 'X' :: 'A' :: 'M' :: 'P' :: 'L' :: 'E' :: '.' :: 'c' :: 'o' :: 'm' :: '/' :: [])) ∧
    ('A' ≤ 'E' ∧ 'E' ≤ 'Z') := by
  refine ⟨by decide, by decide, by decide⟩

theorem toLowerCh_not_upper (c : Char) :
    ¬ ('A' ≤ toLowerCh c ∧ toLowerCh c ≤ 'Z') := by
  unfold toLowerCh
  by_cases h : 'A' ≤ c ∧ c ≤ 'Z'
  · rw [if_pos h]
    have h1 : 65 ≤ c.toNat := h.1
    have h2 : c.toNat ≤ 90 := h.2
    have hv : c.toNat + 32 < 55296 := by omega
    have htg : ∀ n : Nat, n.isValidChar → (Char.ofNat n).toNat = n := by
      intro n hval
      simp [Char.ofNat, hval, Char.ofNatAux, Char.toNat, UInt32.toNat,
        BitVec.toNat_ofNatLt]
    have ht : (Char.ofNat (c.toNat + 32)).toNat = c.toNat + 32 :=
      htg (c.toNat + 32) (Or.inl hv)
    intro hcontra
    have h3 : (Char.ofNat (c.toNat + 32)).toNat ≤ 90 := hcontra.2
    rw [ht] at h3
    omega
  · rw [if_neg h]
    exact h

theorem joinWith_chars (sep : Char) (parts : List Str) (c : Char)
    (hc : c ∈ joinWith sep parts) : c = sep ∨ ∃ p ∈ parts, c ∈ p := by
  induction parts with
  | nil => simp [joinWith] at hc
  | cons a r ih =>
    cases r with
    | nil =>
      right
      exact ⟨a, by simp, by simpa [joinWith] using hc⟩
    | cons b r2 =>
      unfold joinWith at hc
      rw [List.mem_append] at hc
      rcases hc with hc | hc
      · right
        exact ⟨a, by simp, hc⟩
      · rcases List.mem_cons.mp hc with rfl | hc
        · left; rfl
        · rcases ih hc with h | ⟨p, hp, hcp⟩
          · left; exact h
          · right
            exact ⟨p, List.mem_cons_of_mem _ hp, hcp⟩

theorem splitGo_chars (ch : Char) (s : Str) (cur : Str) (l : Str) (c : Char)
    (hl : l ∈ splitGo ch cur s) (hc : c ∈ l) : c ∈ cur ∨ c ∈ s := by
  induction s generalizing cur with
  | nil =>
    simp [splitGo] at hl
    subst hl
    left
    exact List.mem_reverse.mp hc
  | cons a rest ih =>
    by_cases ha : a = ch
    · subst ha
      rw [splitGo_cons_sep] at hl
      rcases List.mem_cons.mp hl with rfl | hl
      · left
        exact List.mem_reverse.mp hc
      · rcases ih [] hl with h | h
        · simp at h
        · right
          exact List.mem_cons_of_mem _ h
    · rw [splitGo_cons_nosep ch a cur rest ha] at hl
      rcases ih (a :: cur) hl with h | h
      · rcases List.mem_cons.mp h with rfl | h
        · right; simp
        · left; exact h
      · right
        exact List.mem_cons_of_mem _ h

theorem splitLabels_chars (s : Str) (l : Str) (c : Char)
    (hl : l ∈ splitLabels s) (hc : c ∈ l) : c ∈ s := by
  rcases splitGo_chars '.' s [] l c hl hc with h | h
  · simp at h
  · exact h

theorem registrableDomain_no_upper (u : URL) (c : Char)
    (hc : c ∈ URL.GetRegistrableDomain u) : ¬ ('A' ≤ c ∧ c ≤ 'Z') := by
  unfold URL.GetRegistrableDomain at hc
  by_cases hip : (isIPv6Literal (lowerStr u.host) || isIPv4 (lowerStr u.host)) = true
  · rw [if_pos hip] at hc
    obtain ⟨c2, _, rfl⟩ := List.mem_map.mp hc
    exact toLowerCh_not_upper c2
  · rw [if_neg hip] at hc
    by_cases hz : publicSuffixLen (lowerStr u.host) = 0 ∨
        (splitLabels (lowerStr u.host)).length ≤ publicSuffixLen (lowerStr u.host)
    · rw [if_pos hz] at hc
      simp at hc
    · rw [if_neg hz] at hc
      rcases joinWith_chars '.' _ c hc with rfl | ⟨p, hp, hcp⟩
      · decide
      · have hps : p ∈ splitLabels (lowerStr u.host) :=
          List.mem_of_mem_drop hp
        have := splitLabels_chars (lowerStr u.host) p c hps hcp
        obtain ⟨c2, _, rfl⟩ := List.mem_map.mp this
        exact toLowerCh_not_upper c2

/-- C4 amended: `Parse` stores the host verbatim — `GetHost()` (and hence
`ToString()` and the digest input) keeps the input's case, so it can contain
uppercase letters.  Lowercasing happens only in the derived domain views:
`GetRegistrableDomain()` lowercases the host first, so its result never
contains an uppercase ASCII letter. -/
theorem C4_host_verbatim (s : Str) (u : URL) (h : URL.ParseOpt s = some u) :
    (∃ pre post, s = pre ++ u.GetHost ++ post) ∧
    (∀ c ∈ URL.GetRegistrableDomain u, ¬ ('A' ≤ c ∧ c ≤ 'Z')) := by
  refine ⟨?_, fun c hc => registrableDomain_no_upper u c hc⟩
  unfold URL.ParseOpt at h
  split_ifs at h with h1 h2 h3
  · refine ⟨s.take 8, afterHost (s.drop 8), ?_⟩
    obtain rfl := (Option.some.injEq _ _).mp h.symm
    show s = s.take 8 ++ hostOf (s.drop 8) ++ afterHost (s.drop 8)
    unfold hostOf afterHost
    rw [List.append_assoc, List.takeWhile_append_dropWhile, List.take_append_drop]
  · refine ⟨s.take 7, afterHost (s.drop 7), ?_⟩
    obtain rfl := (Option.some.injEq _ _).mp h.symm
    show s = s.take 7 ++ hostOf (s.drop 7) ++ afterHost (s.drop 7)
    unfold hostOf afterHost
    rw [List.append_assoc, List.takeWhile_append_dropWhile, List.take_append_drop]
  · refine ⟨[], afterHost s, ?_⟩
    obtain rfl := (Option.some.injEq _ _).mp h.symm
    show s = [] ++ hostOf s ++ afterHost s
    unfold hostOf afterHost
    rw [List.nil_append, List.takeWhile_append_dropWhile]

/-- Witness for C4 at `http://EXAMPLE.com/`. -/
theorem C4_host_verbatim_witness :
    URL.ParseOpt ('h' :: 't' :: 't' :: 'p' :: ':' :: '/' :: '/' :: 'E' :: 'X' :: '.' :: 'c' :: 'o' :: 'm' :: '/' :: []) =
      some (URL.Parse ('h' :: 't' :: 't' :: 'p' :: ':' :: '/' :: '/' :: 'E' :: 'X' :: '.' :: 'c' :: 'o' :: 'm' :: '/' :: [])) ∧
    ((∃ pre post, ('h' :: 't' :: 't' :: 'p' :: ':' :: '/' :: '/' :: 'E' :: 'X' :: '.' :: 'c' :: 'o' :: 'm' :: '/' :: []) =
        pre ++ (URL.Parse ('h' :: 't' :: 't' :: 'p' :: ':' :: '/' :: '/' :: 'E' :: 'X' :: '.' :: 'c' :: 'o' :: 'm' :: '/' :: [])).GetHost ++ post) ∧
      (∀ c ∈ URL.GetRegistrableDomain
          (URL.Parse ('h' :: 't' :: 't' :: 'p' :: ':' :: '/' :: '/' :: 'E' :: 'X' :: '.' :: 'c' :: 'o' :: 'm' :: '/' :: [])),
        ¬ ('A' ≤ c ∧ c ≤ 'Z'))) :=
  ⟨by decide,
   C4_host_verbatim ('h' :: 't' :: 't' :: 'p' :: ':' :: '/' :: '/' :: 'E' :: 'X' :: '.' :: 'c' :: 'o' :: 'm' :: '/' :: [])
     (URL.Parse ('h' :: 't' :: 't' :: 'p' :: ':' :: '/' :: '/' :: 'E' :: 'X' :: '.' :: 'c' :: 'o' :: 'm' :: '/' :: []))
     (by decide)⟩

/-! ## Splitting a well-shaped canonical string back into components -/

theorem takeWhile_false_head (pred : Char → Bool) (c : Char) (t : Str)
    (hc : pred c = false) : (c :: t).takeWhile pred = [] := by
  simp [List.takeWhile_cons, hc]

theorem pathShape_elim (p : Str) (hp : pathShape p) :
    p = [] ∨ (∃ t, p = '/' :: t) := by
  rcases hp with rfl | ⟨hph, _⟩
  · left; rfl
  · right
    cases p with
    | nil => simp at hph
    | cons a t =>
      simp only [List.head?_cons, Option.some.injEq] at hph
      exact ⟨t, by rw [hph]⟩

theorem queryShape_elim (q : Str) (hq : queryShape q) :
    q = [] ∨ (∃ t, q = '?' :: t) := by
  rcases hq with rfl | ⟨hqh, _⟩
  · left; rfl
  · right
    cases q with
    | nil => simp at hqh
    | cons a t =>
      simp only [List.head?_cons, Option.some.injEq] at hqh
      exact ⟨t, by rw [hqh]⟩

theorem fragRaw_elim (f : Str) :
    (fragRaw f = [] ∧ f = []) ∨ fragRaw f = '#' :: f := by
  unfold fragRaw
  by_cases hf : f = []
  · subst hf
    left
    exact ⟨rfl, rfl⟩
  · right
    rw [if_neg hf]

theorem qfr_takeWhile_path (q f : Str) (hq : queryShape q) :
    (q ++ fragRaw f).takeWhile pathChar = [] := by
  rcases queryShape_elim q hq with rfl | ⟨t, rfl⟩
  · rw [List.nil_append]
    rcases fragRaw_elim f with ⟨h1, _⟩ | h1 <;> rw [h1]
    · rfl
    · exact takeWhile_false_head pathChar '#' f rfl
  · exact takeWhile_false_head pathChar '?' _ rfl

theorem pqfr_takeWhile_host (p q f : Str) (hp : pathShape p) (hq : queryShape q) :
    (p ++ (q ++ fragRaw f)).takeWhile hostChar = [] := by
  rcases pathShape_elim p hp with rfl | ⟨t, rfl⟩
  · rw [List.nil_append]
    rcases queryShape_elim q hq with rfl | ⟨t, rfl⟩
    · rw [List.nil_append]
      rcases fragRaw_elim f with ⟨h1, _⟩ | h1 <;> rw [h1]
      · rfl
      · exact takeWhile_false_head hostChar '#' f rfl
    · exact takeWhile_false_head hostChar '?' _ rfl
  · exact takeWhile_false_head hostChar '/' _ rfl

theorem fr_takeWhile_query (f : Str) : (fragRaw f).takeWhile queryChar = [] := by
  rcases fragRaw_elim f with ⟨h1, _⟩ | h1 <;> rw [h1]
  · rfl
  · exact takeWhile_false_head queryChar '#' f rfl

/-- The regex splitter recovers the components of a well-shaped
`host ++ path ++ query ++ fragment-with-hash` string exactly. -/
theorem parseFields_shaped (scheme host p q f : Str)
    (_hh : host ≠ []) (hhc : ∀ c ∈ host, hostChar c = true)
    (hp : pathShape p) (hq : queryShape q) :
    parseFields scheme (host ++ (p ++ (q ++ fragRaw f))) = ⟨scheme, host, p, q, f⟩ := by
  have hsplit1 := run_split hostChar host (p ++ (q ++ fragRaw f)) hhc
    (pqfr_takeWhile_host p q f hp hq)
  have hH : hostOf (host ++ (p ++ (q ++ fragRaw f))) = host := hsplit1.1
  have hA : afterHost (host ++ (p ++ (q ++ fragRaw f))) = p ++ (q ++ fragRaw f) := hsplit1.2
  have hpath : pathOf (p ++ (q ++ fragRaw f)) = p ∧
      afterPath (p ++ (q ++ fragRaw f)) = q ++ fragRaw f := by
    rcases pathShape_elim p hp with rfl | ⟨t, rfl⟩
    · rw [List.nil_append]
      have hhead : (q ++ fragRaw f).head? ≠ some '/' := by
        rcases queryShape_elim q hq with rfl | ⟨t, rfl⟩
        · rw [List.nil_append]
          rcases fragRaw_elim f with ⟨h1, _⟩ | h1 <;> rw [h1] <;> simp
        · simp
      unfold pathOf afterPath
      rw [if_neg hhead, if_neg hhead]
      exact ⟨rfl, rfl⟩
    · have hpc : ∀ c ∈ '/' :: t, pathChar c = true := by
        rcases hp with h1 | ⟨_, h2⟩
        · simp at h1
        · exact h2
      have hsplit2 := run_split pathChar ('/' :: t) (q ++ fragRaw f) hpc
        (qfr_takeWhile_path q f hq)
      unfold pathOf afterPath
      rw [List.cons_append, if_pos (by rfl), ← List.cons_append]
      exact hsplit2
  have hquery : queryOf (q ++ fragRaw f) = q ∧ afterQuery (q ++ fragRaw f) = fragRaw f := by
    rcases queryShape_elim q hq with rfl | ⟨t, rfl⟩
    · rw [List.nil_append]
      have hhead : (fragRaw f).head? ≠ some '?' := by
        rcases fragRaw_elim f with ⟨h1, _⟩ | h1 <;> rw [h1] <;> simp
      unfold queryOf afterQuery
      rw [if_neg hhead, if_neg hhead]
      exact ⟨rfl, rfl⟩
    · have hqc : ∀ c ∈ '?' :: t, queryChar c = true := by
        rcases hq with h1 | ⟨_, h2⟩
        · simp at h1
        · exact h2
      have hsplit2 := run_split queryChar ('?' :: t) (fragRaw f) hqc
        (fr_takeWhile_query f)
      unfold queryOf afterQuery
      rw [List.cons_append, if_pos (by rfl), ← List.cons_append]
      exact hsplit2
  have hfragdrop : (fragRaw f).drop 1 = f := by
    rcases fragRaw_elim f with ⟨h1, h2⟩ | h1 <;> rw [h1]
    · rw [h2]
      rfl
    · rfl
  simp only [parseFields]
  rw [hH, hA, hpath.1, hpath.2, hquery.1, hquery.2, hfragdrop]

/-- `ParseOpt` on an assembled canonical string with an explicit scheme. -/
theorem ParseOpt_assembled (sch host p q f : Str)
    (hsch : sch = schemeHttp ∨ sch = schemeHttps)
    (hh : host ≠ []) (hhc : ∀ c ∈ host, hostChar c = true)
    (hp : pathShape p) (hq : queryShape q) :
    URL.ParseOpt ((sch ++ sepStr) ++ (host ++ (p ++ (q ++ fragRaw f)))) =
      some ⟨sch, host, p, q, f⟩ := by
  have hhost_ne : hostOf (host ++ (p ++ (q ++ fragRaw f))) ≠ [] := by
    unfold hostOf
    rw [(run_split hostChar host _ hhc (pqfr_takeWhile_host p q f hp hq)).1]
    exact hh
  rcases hsch with rfl | rfl
  · have hpre : (schemeHttp ++ sepStr) ++ (host ++ (p ++ (q ++ fragRaw f))) =
        httpPre ++ (host ++ (p ++ (q ++ fragRaw f))) := rfl
    have hdrop7 : (httpPre ++ (host ++ (p ++ (q ++ fragRaw f)))).drop 7 =
        host ++ (p ++ (q ++ fragRaw f)) := by
      rw [show (7 : Nat) = httpPre.length from rfl]
      exact List.drop_left _ _
    have hnotss : ¬ ((∃ t, httpPre ++ (host ++ (p ++ (q ++ fragRaw f))) = httpsPre ++ t) ∧
        hostOf ((httpPre ++ (host ++ (p ++ (q ++ fragRaw f)))).drop 8) ≠ []) := by
      rintro ⟨⟨t, ht⟩, -⟩
      simp [httpPre, httpsPre] at ht
    rw [hpre]
    unfold URL.ParseOpt
    rw [if_neg hnotss]
    rw [if_pos (⟨⟨host ++ (p ++ (q ++ fragRaw f)), rfl⟩, by
        rw [hdrop7]; exact hhost_ne⟩ :
        (∃ t, httpPre ++ (host ++ (p ++ (q ++ fragRaw f))) = httpPre ++ t) ∧
          hostOf ((httpPre ++ (host ++ (p ++ (q ++ fragRaw f)))).drop 7) ≠ [])]
    rw [hdrop7, parseFields_shaped schemeHttp host p q f hh hhc hp hq]
  · have hpre : (schemeHttps ++ sepStr) ++ (host ++ (p ++ (q ++ fragRaw f))) =
        httpsPre ++ (host ++ (p ++ (q ++ fragRaw f))) := rfl
    have hdrop8 : (httpsPre ++ (host ++ (p ++ (q ++ fragRaw f)))).drop 8 =
        host ++ (p ++ (q ++ fragRaw f)) := by
      rw [show (8 : Nat) = httpsPre.length from rfl]
      exact List.drop_left _ _
    rw [hpre]
    unfold URL.ParseOpt
    rw [if_pos (⟨⟨host ++ (p ++ (q ++ fragRaw f)), rfl⟩, by
        rw [hdrop8]; exact hhost_ne⟩ :
        (∃ t, httpsPre ++ (host ++ (p ++ (q ++ fragRaw f))) = httpsPre ++ t) ∧
          hostOf ((httpsPre ++ (host ++ (p ++ (q ++ fragRaw f)))).drop 8) ≠ [])]
    rw [hdrop8, parseFields_shaped schemeHttps host p q f hh hhc hp hq]

/-! ## Every parsed URL is well-shaped -/

theorem parseFields_WF (scheme rest : Str)
    (hsch : scheme = [] ∨ scheme = schemeHttp ∨ scheme = schemeHttps)
    (hne : hostOf rest ≠ []) : URL.WF (parseFields scheme rest) := by
  have hpf : parseFields scheme rest =
      ⟨scheme, hostOf rest, pathOf (afterHost rest),
        queryOf (afterPath (afterHost rest)),
        (afterQuery (afterPath (afterHost rest))).drop 1⟩ := rfl
  rw [hpf]
  refine ⟨hsch, hne, ?_, ?_, ?_⟩
  · intro c hc
    exact List.mem_takeWhile_imp hc
  · unfold pathOf
    by_cases hh : (afterHost rest).head? = some '/'
    · rw [if_pos hh]
      right
      cases hrest : afterHost rest with
      | nil => rw [hrest] at hh; simp at hh
      | cons a t =>
        rw [hrest] at hh
        simp only [List.head?_cons, Option.some.injEq] at hh
        subst hh
        constructor
        · rw [List.takeWhile_cons]
          simp [pathChar]
        · intro c hc
          exact List.mem_takeWhile_imp hc
    · rw [if_neg hh]
      left
      rfl
  · unfold queryOf
    by_cases hh : (afterPath (afterHost rest)).head? = some '?'
    · rw [if_pos hh]
      right
      cases hrest : afterPath (afterHost rest) with
      | nil => rw [hrest] at hh; simp at hh
      | cons a t =>
        rw [hrest] at hh
        simp only [List.head?_cons, Option.some.injEq] at hh
        subst hh
        constructor
        · rw [List.takeWhile_cons]
          simp [queryChar]
        · intro c hc
          exact List.mem_takeWhile_imp hc
    · rw [if_neg hh]
      left
      rfl

theorem ParseOpt_WF (s : Str) (u : URL) (h : URL.ParseOpt s = some u) :
    URL.WF u := by
  unfold URL.ParseOpt at h
  split_ifs at h with h1 h2 h3
  · obtain rfl := (Option.some.injEq _ _).mp h.symm
    exact parseFields_WF _ _ (Or.inr (Or.inr rfl)) h1.2
  · obtain rfl := (Option.some.injEq _ _).mp h.symm
    exact parseFields_WF _ _ (Or.inr (Or.inl rfl)) h2.2
  · obtain rfl := (Option.some.injEq _ _).mp h.symm
    exact parseFields_WF _ _ (Or.inl rfl) h3

/-! ## normalize_path output shape -/

theorem rawSegsGo_chars (s : Str) (cur : Str) (l : Str) (c : Char)
    (hl : l ∈ rawSegsGo cur s) (hc : c ∈ l) : c ∈ cur ∨ c ∈ s := by
  induction s generalizing cur with
  | nil =>
    simp [rawSegsGo] at hl
    subst hl
    left
    exact List.mem_reverse.mp hc
  | cons a rest ih =>
    by_cases ha : a = '/'
    · subst ha
      unfold rawSegsGo at hl
      rw [if_pos rfl] at hl
      rcases List.mem_cons.mp hl with rfl | hl
      · left
        exact List.mem_reverse.mp hc
      · cases rest with
        | nil => simp at hl
        | cons b r2 =>
          rcases ih [] hl with hmem | hmem
          · simp at hmem
          · right
            exact List.mem_cons_of_mem _ hmem
    · unfold rawSegsGo at hl
      rw [if_neg ha] at hl
      rcases ih (a :: cur) hl with hmem | hmem
      · rcases List.mem_cons.mp hmem with rfl | hmem
        · right; simp
        · left; exact hmem
      · right
        exact List.mem_cons_of_mem _ hmem

theorem rawSegs_chars (raw : Str) (l : Str) (c : Char)
    (hl : l ∈ rawSegs raw) (hc : c ∈ l) : c ∈ raw := by
  cases raw with
  | nil => simp [rawSegs] at hl
  | cons a r =>
    rcases rawSegsGo_chars (a :: r) [] l c hl hc with h | h
    · simp at h
    · exact h

theorem collapseSegs_mem (segs : List Str) (acc : List Str) (x : Str)
    (hx : x ∈ collapseSegs segs acc) : x ∈ acc ∨ x ∈ segs := by
  induction segs generalizing acc with
  | nil =>
    left
    simpa [collapseSegs] using hx
  | cons seg rest ih =>
    unfold collapseSegs at hx
    split_ifs at hx with hdots hskip
    · rcases ih _ hx with h | h
      · left
        exact List.dropLast_subset _ h
      · right
        exact List.mem_cons_of_mem _ h
    · rcases ih _ hx with h | h
      · left; exact h
      · right
        exact List.mem_cons_of_mem _ h
    · rcases ih _ hx with h | h
      · rcases List.mem_append.mp h with h2 | h2
        · left; exact h2
        · right
          rcases List.mem_singleton.mp h2 with rfl
          simp
      · right
        exact List.mem_cons_of_mem _ h

theorem normalizePath_chars (raw : Str) (c : Char)
    (hc : c ∈ normalizePath raw) : c = '/' ∨ c ∈ raw := by
  unfold normalizePath joinSegs at hc
  rcases List.mem_cons.mp hc with rfl | hc
  · left; rfl
  · rcases joinWith_chars '/' _ c hc with h | ⟨p, hp, hcp⟩
    · left; exact h
    · rcases collapseSegs_mem _ [] p hp with h | h
      · simp at h
      · right
        exact rawSegs_chars raw p c h hcp

theorem normalizePath_pathShape (raw : Str)
    (hraw : ∀ c ∈ raw, pathChar c = true) : pathShape (normalizePath raw) := by
  right
  constructor
  · rfl
  · intro c hc
    rcases normalizePath_chars raw c hc with rfl | h
    · rfl
    · exact hraw c h

/-! ## C8: the resolver -/

theorem takeWhile_all (p : Char → Bool) (l : Str) (h : ∀ c ∈ l, p c = true) :
    l.takeWhile p = l := by
  induction l with
  | nil => rfl
  | cons a t ih =>
    rw [List.takeWhile_cons, if_pos (h a (by simp))]
    rw [ih (fun c hc => h c (List.mem_cons_of_mem a hc))]

theorem dropWhile_all (p : Char → Bool) (l : Str) (h : ∀ c ∈ l, p c = true) :
    l.dropWhile p = [] := by
  induction l with
  | nil => rfl
  | cons a t ih =>
    rw [List.dropWhile_cons, if_pos (h a (by simp))]
    exact ih (fun c hc => h c (List.mem_cons_of_mem a hc))

theorem lastSlashTake_subset (p : Str) (c : Char) (hc : c ∈ lastSlashTake p) :
    c ∈ p := by
  unfold lastSlashTake at hc
  rw [List.mem_reverse] at hc
  have := (List.dropWhile_sublist _).subset hc
  exact List.mem_reverse.mp this

/-- C8 counterexample: `Resolve("")` on a base with an empty path gains a
`/` path instead of reproducing the base, and a protocol-relative reference
beginning with `/` replaces the host. -/
theorem C8_counterexample :
    URL.Resolve (URL.Parse ('h' :: 't' :: 't' :: 'p' :: ':' :: '/' :: '/' :: 'h' :: [])) [] ≠
      { URL.Parse ('h' :: 't' :: 't' :: 'p' :: ':' :: '/' :: '/' :: 'h' :: []) with fragment := [] } ∧
    (URL.Resolve (URL.Parse ('h' :: 't' :: 't' :: 'p' :: ':' :: '/' :: '/' :: 'a' :: '/' :: 'b' :: []))
        ('/' :: '/' :: 'c' :: '/' :: 'd' :: [])).GetHost ≠
      (URL.Parse ('h' :: 't' :: 't' :: 'p' :: ':' :: '/' :: '/' :: 'a' :: '/' :: 'b' :: [])).GetHost := by
  constructor
  · decide
  · decide

/-- C8 amended: for a parsed base with a scheme and a nonempty path,
`Resolve("")` yields the base minus its fragment (an empty base path would
become `/`); `Resolve(r)` preserves the base's scheme and host for `r`
beginning with a single `/` — but not for protocol-relative `//…` or
`"://"`-containing refs, which replace the host; and `Resolve(rel)` for a
relative path with no `?`/`#` yields a URL whose path is
`normalize(base_dir ++ rel)`, where `base_dir` is the base path up to and
including its last slash (`/` when the base path is empty). -/
theorem C8_resolve (s ref1 ref2 : Str) (base : URL)
    (hb : URL.ParseOpt s = some base)
    (hsch : base.GetScheme ≠ [])
    (hbp : base.GetPath ≠ [])
    (h1a : ref1.head? = some '/') (h1b : ref1.take 2 ≠ ['/', '/'])
    (h1c : ¬ sepStr <:+: ref1)
    (h2a : ref2 ≠ []) (h2b : ref2.head? ≠ some '/') (h2c : ¬ sepStr <:+: ref2)
    (h2d : '?' ∉ ref2) (h2e : '#' ∉ ref2) :
    URL.Resolve base [] = { base with fragment := [] } ∧
    ((URL.Resolve base ref1).GetScheme = base.GetScheme ∧
     (URL.Resolve base ref1).GetHost = base.GetHost) ∧
    (URL.Resolve base ref2).GetPath =
      normalizePath ((if base.GetPath = [] then ['/'] else lastSlashTake base.GetPath) ++ ref2) := by
  obtain ⟨hschemes, hhne, hhc, hps, hqs⟩ := ParseOpt_WF s base hb
  have hsch' : base.scheme ≠ [] := hsch
  have hbp' : base.path ≠ [] := hbp
  have hsch2 : base.scheme = schemeHttp ∨ base.scheme = schemeHttps := by
    rcases hschemes with h | h | h
    · exact absurd h hsch'
    · exact Or.inl h
    · exact Or.inr h
  refine ⟨?_, ?_, ?_⟩
  · -- Resolve("")
    have hinfix0 : ¬ (sepStr <:+: ([] : Str)) := by
      rintro ⟨x, y, hxy⟩
      simp [sepStr] at hxy
    have htake0 : ¬ (([] : Str).take 2 = ['/', '/']) := by decide
    have ha1 : URL.Resolve base [] =
        URL.Parse (base.scheme ++ sepStr ++ base.host ++ base.path ++ base.query) := by
      simp [URL.Resolve, hinfix0, htake0, hsch', hbp']
    have hstr1 : base.scheme ++ sepStr ++ base.host ++ base.path ++ base.query =
        (base.scheme ++ sepStr) ++ (base.host ++ (base.path ++ (base.query ++ fragRaw []))) := by
      simp [fragRaw, List.append_assoc]
    have hpa := ParseOpt_assembled base.scheme base.host base.path base.query []
      hsch2 hhne hhc hps hqs
    have hresa : URL.Resolve base [] =
        ⟨base.scheme, base.host, base.path, base.query, []⟩ := by
      rw [ha1, hstr1]
      unfold URL.Parse
      rw [hpa]
      rfl
    rw [hresa]
  · -- Resolve("/…") with a single leading slash
    obtain ⟨t, rfl⟩ : ∃ t, ref1 = '/' :: t := by
      cases ref1 with
      | nil => simp at h1a
      | cons a t =>
        simp only [List.head?_cons, Option.some.injEq] at h1a
        exact ⟨t, by rw [h1a]⟩
    have h1b2 : t.take 1 ≠ ['/'] := by
      intro h
      apply h1b
      simp [h]
    have hb1 : URL.Resolve base ('/' :: t) =
        URL.Parse (base.scheme ++ sepStr ++ base.host ++
          normalizePath ('/' :: (t.takeWhile (fun c => !(c == '#'))).takeWhile (fun c => !(c == '?'))) ++
          ((if '?' ∈ t.takeWhile (fun c => !(c == '#'))
            then (t.takeWhile (fun c => !(c == '#'))).dropWhile (fun c => !(c == '?')) else []) ++
           fragRaw ((t.dropWhile (fun c => !(c == '#'))).tail))) := by
      simp [URL.Resolve, h1b2, h1c, hsch', fragRaw, List.append_assoc]
    have hp1 : pathShape (normalizePath
        ('/' :: (t.takeWhile (fun c => !(c == '#'))).takeWhile (fun c => !(c == '?')))) := by
      apply normalizePath_pathShape
      intro c hc
      rcases List.mem_cons.mp hc with rfl | hc
      · rfl
      · have hq2 : ¬ (c == '?') = true := by
          have := List.mem_takeWhile_imp hc
          simpa using this
        have hmem2 : c ∈ t.takeWhile (fun c => !(c == '#')) :=
          (List.takeWhile_sublist _).subset hc
        have hh2 : ¬ (c == '#') = true := by
          have := List.mem_takeWhile_imp hmem2
          simpa using this
        simp only [pathChar, Bool.not_eq_true] at hq2 hh2 ⊢
        simp [hq2, hh2]
    have hq1 : queryShape (if '?' ∈ t.takeWhile (fun c => !(c == '#'))
        then (t.takeWhile (fun c => !(c == '#'))).dropWhile (fun c => !(c == '?')) else []) := by
      by_cases hcond : '?' ∈ t.takeWhile (fun c => !(c == '#'))
      · rw [if_pos hcond]
        right
        constructor
        · cases hdw : (t.takeWhile (fun c => !(c == '#'))).dropWhile (fun c => !(c == '?')) with
          | nil =>
            have := List.dropWhile_eq_nil_iff.mp hdw '?' hcond
            simp at this
          | cons a t2 =>
            have ha := dropWhile_head_false (fun c => !(c == '?'))
              (t.takeWhile (fun c => !(c == '#'))) a (by rw [hdw]; rfl)
            simp only [Bool.not_eq_false', beq_iff_eq] at ha
            rw [ha]
            rfl
        · intro c hc
          have hmem2 : c ∈ t.takeWhile (fun c => !(c == '#')) :=
            (List.dropWhile_sublist _).subset hc
          have hh2 := List.mem_takeWhile_imp hmem2
          simpa [queryChar] using hh2
      · rw [if_neg hcond]
        left
        rfl
    have hpb := ParseOpt_assembled base.scheme base.host
      (normalizePath ('/' :: (t.takeWhile (fun c => !(c == '#'))).takeWhile (fun c => !(c == '?'))))
      (if '?' ∈ t.takeWhile (fun c => !(c == '#'))
       then (t.takeWhile (fun c => !(c == '#'))).dropWhile (fun c => !(c == '?')) else [])
      ((t.dropWhile (fun c => !(c == '#'))).tail)
      hsch2 hhne hhc hp1 hq1
    have hstr2 : base.scheme ++ sepStr ++ base.host ++
        normalizePath ('/' :: (t.takeWhile (fun c => !(c == '#'))).takeWhile (fun c => !(c == '?'))) ++
        ((if '?' ∈ t.takeWhile (fun c => !(c == '#'))
          then (t.takeWhile (fun c => !(c == '#'))).dropWhile (fun c => !(c == '?')) else []) ++
         fragRaw ((t.dropWhile (fun c => !(c == '#'))).tail)) =
        (base.scheme ++ sepStr) ++ (base.host ++
          (normalizePath ('/' :: (t.takeWhile (fun c => !(c == '#'))).takeWhile (fun c => !(c == '?'))) ++
           ((if '?' ∈ t.takeWhile (fun c => !(c == '#'))
             then (t.takeWhile (fun c => !(c == '#'))).dropWhile (fun c => !(c == '?')) else []) ++
            fragRaw ((t.dropWhile (fun c => !(c == '#'))).tail)))) := by
      simp [List.append_assoc]
    have hres1 : URL.Resolve base ('/' :: t) =
        ⟨base.scheme, base.host,
         normalizePath ('/' :: (t.takeWhile (fun c => !(c == '#'))).takeWhile (fun c => !(c == '?'))),
         (if '?' ∈ t.takeWhile (fun c => !(c == '#'))
          then (t.takeWhile (fun c => !(c == '#'))).dropWhile (fun c => !(c == '?')) else []),
         (t.dropWhile (fun c => !(c == '#'))).tail⟩ := by
      rw [hb1, hstr2]
      unfold URL.Parse
      rw [hpb]
      rfl
    rw [hres1]
    exact ⟨rfl, rfl⟩
  · -- Resolve(relative path)
    have htake2 : ref2.take 2 ≠ ['/', '/'] := by
      intro h
      apply h2b
      cases ref2 with
      | nil => simp at h
      | cons a t =>
        simp at h
        rw [h.1]
        rfl
    have hsv : ref2.takeWhile (fun c => !(c == '#')) = ref2 :=
      takeWhile_all _ _ (fun c hc => by simp; intro hcc; exact h2e (hcc ▸ hc))
    have hfr : ref2.dropWhile (fun c => !(c == '#')) = [] :=
      dropWhile_all _ _ (fun c hc => by simp; intro hcc; exact h2e (hcc ▸ hc))
    have hrp : ref2.takeWhile (fun c => !(c == '?')) = ref2 :=
      takeWhile_all _ _ (fun c hc => by simp; intro hcc; exact h2d (hcc ▸ hc))
    have hrq : ref2.dropWhile (fun c => !(c == '?')) = [] :=
      dropWhile_all _ _ (fun c hc => by simp; intro hcc; exact h2d (hcc ▸ hc))
    have hc1 : URL.Resolve base ref2 =
        URL.Parse (base.scheme ++ sepStr ++ base.host ++
          normalizePath ((if base.path = [] then ['/'] else lastSlashTake base.path) ++ ref2)) := by
      simp [URL.Resolve, htake2, h2c, hsch', hsv, hfr, hrp, hrq, h2a, h2b]
    have hpc1 : pathShape (normalizePath
        ((if base.path = [] then ['/'] else lastSlashTake base.path) ++ ref2)) := by
      apply normalizePath_pathShape
      intro c hc
      rcases List.mem_append.mp hc with hc | hc
      · by_cases hbp0 : base.path = []
        · rw [if_pos hbp0] at hc
          rcases List.mem_singleton.mp hc with rfl
          rfl
        · rw [if_neg hbp0] at hc
          have hmem2 := lastSlashTake_subset base.path c hc
          rcases hps with h0 | ⟨_, h0⟩
          · exact absurd h0 hbp0
          · exact h0 c hmem2
      · have hq2 : ¬ (c = '?') := fun h => h2d (h ▸ hc)
        have hh2 : ¬ (c = '#') := fun h => h2e (h ▸ hc)
        simp [pathChar, hq2, hh2]
    have hstr3 : base.scheme ++ sepStr ++ base.host ++
        normalizePath ((if base.path = [] then ['/'] else lastSlashTake base.path) ++ ref2) =
        (base.scheme ++ sepStr) ++ (base.host ++
          (normalizePath ((if base.path = [] then ['/'] else lastSlashTake base.path) ++ ref2) ++
           ([] ++ fragRaw []))) := by
      simp [fragRaw, List.append_assoc]
    have hpc := ParseOpt_assembled base.scheme base.host
      (normalizePath ((if base.path = [] then ['/'] else lastSlashTake base.path) ++ ref2))
      [] [] hsch2 hhne hhc hpc1 (Or.inl rfl)
    have hres2 : URL.Resolve base ref2 =
        ⟨base.scheme, base.host,
         normalizePath ((if base.path = [] then ['/'] else lastSlashTake base.path) ++ ref2),
         [], []⟩ := by
      rw [hc1, hstr3]
      unfold URL.Parse
      rw [hpc]
      rfl
    rw [hres2]
    rfl

/-- Witness for C8 at a concrete base and references. -/
theorem C8_resolve_witness :
    URL.ParseOpt ('h' :: 't' :: 't' :: 'p' :: ':' :: '/' :: '/' :: 'a' :: '/' :: 'b' :: '/' :: 'c' :: []) =
      some (URL.Parse ('h' :: 't' :: 't' :: 'p' :: ':' :: '/' :: '/' :: 'a' :: '/' :: 'b' :: '/' :: 'c' :: [])) ∧
    (URL.Resolve (URL.Parse ('h' :: 't' :: 't' :: 'p' :: ':' :: '/' :: '/' :: 'a' :: '/' :: 'b' :: '/' :: 'c' :: [])) [] =
      ⟨(URL.Parse ('h' :: 't' :: 't' :: 'p' :: ':' :: '/' :: '/' :: 'a' :: '/' :: 'b' :: '/' :: 'c' :: [])).scheme,
       (URL.Parse ('h' :: 't' :: 't' :: 'p' :: ':' :: '/' :: '/' :: 'a' :: '/' :: 'b' :: '/' :: 'c' :: [])).host,
       (URL.Parse ('h' :: 't' :: 't' :: 'p' :: ':' :: '/' :: '/' :: 'a' :: '/' :: 'b' :: '/' :: 'c' :: [])).path,
       (URL.Parse ('h' :: 't' :: 't' :: 'p' :: ':' :: '/' :: '/' :: 'a' :: '/' :: 'b' :: '/' :: 'c' :: [])).query,
       []⟩ ∧
    ((URL.Resolve (URL.Parse ('h' :: 't' :: 't' :: 'p' :: ':' :: '/' :: '/' :: 'a' :: '/' :: 'b' :: '/' :: 'c' :: []))
        ('/' :: 'x' :: [])).GetScheme =
      (URL.Parse ('h' :: 't' :: 't' :: 'p' :: ':' :: '/' :: '/' :: 'a' :: '/' :: 'b' :: '/' :: 'c' :: [])).GetScheme ∧
     (URL.Resolve (URL.Parse ('h' :: 't' :: 't' :: 'p' :: ':' :: '/' :: '/' :: 'a' :: '/' :: 'b' :: '/' :: 'c' :: []))
        ('/' :: 'x' :: [])).GetHost =
      (URL.Parse ('h' :: 't' :: 't' :: 'p' :: ':' :: '/' :: '/' :: 'a' :: '/' :: 'b' :: '/' :: 'c' :: [])).GetHost) ∧
    (URL.Resolve (URL.Parse ('h' :: 't' :: 't' :: 'p' :: ':' :: '/' :: '/' :: 'a' :: '/' :: 'b' :: '/' :: 'c' :: []))
        ('d' :: [])).GetPath =
      normalizePath ((if (URL.Parse ('h' :: 't' :: 't' :: 'p' :: ':' :: '/' :: '/' :: 'a' :: '/' :: 'b' :: '/' :: 'c' :: [])).GetPath = []
        then ['/']
        else lastSlashTake (URL.Parse ('h' :: 't' :: 't' :: 'p' :: ':' :: '/' :: '/' :: 'a' :: '/' :: 'b' :: '/' :: 'c' :: [])).GetPath) ++
        ('d' :: []))) := by
  refine ⟨by decide, ?_⟩
  exact C8_resolve ('h' :: 't' :: 't' :: 'p' :: ':' :: '/' :: '/' :: 'a' :: '/' :: 'b' :: '/' :: 'c' :: [])
     ('/' :: 'x' :: []) ('d' :: [])
     (URL.Parse ('h' :: 't' :: 't' :: 'p' :: ':' :: '/' :: '/' :: 'a' :: '/' :: 'b' :: '/' :: 'c' :: []))
     (by decide) (by decide) (by decide) (by decide) (by decide)
     (by decide) (by decide) (by decide) (by decide) (by decide) (by decide)

/-! ## C3: decomposing a parse back into the input -/

theorem pathOf_shape (r : Str) : pathShape (pathOf r) := by
  unfold pathOf
  by_cases hh : r.head? = some '/'
  · rw [if_pos hh]
    right
    cases hr : r with
    | nil => rw [hr] at hh; simp at hh
    | cons a t =>
      rw [hr] at hh
      simp only [List.head?_cons, Option.some.injEq] at hh
      subst hh
      constructor
      · rw [List.takeWhile_cons]
        simp [pathChar]
      · intro c hc
        exact List.mem_takeWhile_imp hc
  · rw [if_neg hh]
    left
    rfl

theorem queryOf_shape (r : Str) : queryShape (queryOf r) := by
  unfold queryOf
  by_cases hh : r.head? = some '?'
  · rw [if_pos hh]
    right
    cases hr : r with
    | nil => rw [hr] at hh; simp at hh
    | cons a t =>
      rw [hr] at hh
      simp only [List.head?_cons, Option.some.injEq] at hh
      subst hh
      constructor
      · rw [List.takeWhile_cons]
        simp [queryChar]
      · intro c hc
        exact List.mem_takeWhile_imp hc
  · rw [if_neg hh]
    left
    rfl

theorem afterHost_decomp (r1 : Str) : r1 = pathOf r1 ++ afterPath r1 := by
  unfold pathOf afterPath
  by_cases h : r1.head? = some '/'
  · rw [if_pos h, if_pos h, List.takeWhile_append_dropWhile]
  · rw [if_neg h, if_neg h, List.nil_append]

theorem afterPath_decomp (r2 : Str) : r2 = queryOf r2 ++ afterQuery r2 := by
  unfold queryOf afterQuery
  by_cases h : r2.head? = some '?'
  · rw [if_pos h, if_pos h, List.takeWhile_append_dropWhile]
  · rw [if_neg h, if_neg h, List.nil_append]

theorem rest_decomp (rest : Str) :
    rest = hostOf rest ++ (pathOf (afterHost rest) ++
      (queryOf (afterPath (afterHost rest)) ++ afterQuery (afterPath (afterHost rest)))) := by
  have h1 : rest = hostOf rest ++ afterHost rest :=
    (List.takeWhile_append_dropWhile hostChar rest).symm
  have h2 := afterHost_decomp (afterHost rest)
  have h3 := afterPath_decomp (afterPath (afterHost rest))
  conv_lhs => rw [h1]
  rw [← h3, ← h2]

theorem afterQuery_shape (rest : Str) :
    afterQuery (afterPath (afterHost rest)) = [] ∨
      (afterQuery (afterPath (afterHost rest))).head? = some '#' := by
  have hr1 : ∀ c, (afterHost rest).head? = some c → hostChar c = false :=
    fun c hc => dropWhile_head_false hostChar rest c hc
  have hr2 : ∀ c, (afterPath (afterHost rest)).head? = some c →
      (c = '#' ∨ c = '?') := by
    intro c hc
    unfold afterPath at hc
    by_cases h : (afterHost rest).head? = some '/'
    · rw [if_pos h] at hc
      have := dropWhile_head_false pathChar (afterHost rest) c hc
      simp [pathChar] at this
      tauto
    · rw [if_neg h] at hc
      have := hr1 c hc
      simp [hostChar] at this
      by_cases h1 : c = '/'
      · exact absurd (by rw [hc, h1]) h
      · by_cases h2 : c = '?'
        · right; exact h2
        · left; exact this h1 h2
  unfold afterQuery
  by_cases h : (afterPath (afterHost rest)).head? = some '?'
  · rw [if_pos h]
    cases hdw : (afterPath (afterHost rest)).dropWhile queryChar with
    | nil => left; rfl
    | cons a t =>
      right
      have := dropWhile_head_false queryChar (afterPath (afterHost rest)) a
        (by rw [hdw]; rfl)
      simp [queryChar] at this
      rw [this]
      rfl
  · rw [if_neg h]
    cases hr2c : afterPath (afterHost rest) with
    | nil => left; rfl
    | cons a t =>
      right
      have ha := hr2 a (by rw [hr2c]; rfl)
      rcases ha with rfl | rfl
      · rfl
      · exact absurd (by rw [hr2c]; rfl) h

theorem hostOf_no_hash (rest : Str) : '#' ∉ hostOf rest := by
  intro h
  have := List.mem_takeWhile_imp h
  simp [hostChar] at this

theorem pathOf_no_hash (r : Str) : '#' ∉ pathOf r := by
  intro h
  unfold pathOf at h
  by_cases hh : r.head? = some '/'
  · rw [if_pos hh] at h
    have := List.mem_takeWhile_imp h
    simp [pathChar] at this
  · rw [if_neg hh] at h
    simp at h

theorem queryOf_no_hash (r : Str) : '#' ∉ queryOf r := by
  intro h
  unfold queryOf at h
  by_cases hh : r.head? = some '?'
  · rw [if_pos hh] at h
    have := List.mem_takeWhile_imp h
    simp [queryChar] at this
  · rw [if_neg hh] at h
    simp at h

/-- `ToString` of any parse result is the scheme prefix followed by the
components in order, with the fragment re-prefixed by its hash. -/
theorem parseFields_toString (sch rest : Str) :
    URL.ToString (parseFields sch rest) =
      (if sch = [] then [] else sch ++ sepStr) ++
        (hostOf rest ++ (pathOf (afterHost rest) ++
          (queryOf (afterPath (afterHost rest)) ++
            fragRaw ((afterQuery (afterPath (afterHost rest))).drop 1)))) := by
  have hpf : parseFields sch rest =
      ⟨sch, hostOf rest, pathOf (afterHost rest),
        queryOf (afterPath (afterHost rest)),
        (afterQuery (afterPath (afterHost rest))).drop 1⟩ := rfl
  rw [hpf]
  unfold URL.ToString fragRaw
  simp only []
  rcases pathShape_elim _ (pathOf_shape (afterHost rest)) with hp | ⟨t, hp⟩
  · rw [hp]
    simp [List.append_assoc]
  · rw [hp]
    simp [List.append_assoc]

/-- Parsing `t` and re-serializing returns `t` itself, except that a single
trailing lone hash is dropped. -/
theorem ParseOpt_toString (t : Str) (u : URL) (h : URL.ParseOpt t = some u) :
    URL.ToString u = t ∨
      (∃ X, t = X ++ ['#'] ∧ '#' ∉ X ∧ URL.ToString u = X) := by
  unfold URL.ParseOpt at h
  split_ifs at h with h1 h2 h3
  · obtain rfl := (Option.some.injEq _ _).mp h.symm
    obtain ⟨t2, hpre⟩ := h1.1
    have hts := parseFields_toString schemeHttps (t.drop 8)
    rw [if_neg (by simp [schemeHttps])] at hts
    have hdrop : t.drop 8 = t2 := by
      rw [hpre, show (8 : Nat) = httpsPre.length from rfl]
      exact List.drop_left _ _
    have hpres : (schemeHttps ++ sepStr : Str) = httpsPre := rfl
    rw [hpres] at hts
    have hrd := rest_decomp (t.drop 8)
    have hshape := afterQuery_shape (t.drop 8)
    rcases hshape with hr3 | hr3
    · left
      rw [hts, hr3]
      have : fragRaw (([] : Str).drop 1) = [] := rfl
      rw [this]
      conv_rhs => rw [hpre, ← hdrop]
      conv_rhs => rw [hrd, hr3]
    · cases hr3c : afterQuery (afterPath (afterHost (t.drop 8))) with
      | nil => rw [hr3c] at hr3; simp at hr3
      | cons a xs =>
        rw [hr3c] at hr3
        simp only [List.head?_cons, Option.some.injEq] at hr3
        subst hr3
        by_cases hxs : xs = []
        · right
          subst hxs
          refine ⟨httpsPre ++ (hostOf (t.drop 8) ++ (pathOf (afterHost (t.drop 8)) ++
            queryOf (afterPath (afterHost (t.drop 8))))), ?_, ?_, ?_⟩
          · conv_lhs => rw [hpre, ← hdrop, hrd, hr3c]
            simp
          · intro hmem
            rcases List.mem_append.mp hmem with hm | hm
            · simp [httpsPre] at hm
            · rcases List.mem_append.mp hm with hm | hm
              · exact hostOf_no_hash _ hm
              · rcases List.mem_append.mp hm with hm | hm
                · exact pathOf_no_hash _ hm
                · exact queryOf_no_hash _ hm
          · rw [hts, hr3c]
            have : fragRaw (('#' :: ([] : Str)).drop 1) = [] := rfl
            rw [this]
            simp
        · left
          rw [hts, hr3c]
          have : fragRaw (('#' :: xs).drop 1) = '#' :: xs := by
            unfold fragRaw
            rw [List.drop_one, List.tail_cons, if_neg hxs]
          rw [this]
          conv_rhs => rw [hpre, ← hdrop, hrd, hr3c]
  · obtain rfl := (Option.some.injEq _ _).mp h.symm
    obtain ⟨t2, hpre⟩ := h2.1
    have hts := parseFields_toString schemeHttp (t.drop 7)
    rw [if_neg (by simp [schemeHttp])] at hts
    have hdrop : t.drop 7 = t2 := by
      rw [hpre, show (7 : Nat) = httpPre.length from rfl]
      exact List.drop_left _ _
    have hpres : (schemeHttp ++ sepStr : Str) = httpPre := rfl
    rw [hpres] at hts
    have hrd := rest_decomp (t.drop 7)
    have hshape := afterQuery_shape (t.drop 7)
    rcases hshape with hr3 | hr3
    · left
      rw [hts, hr3]
      have : fragRaw (([] : Str).drop 1) = [] := rfl
      rw [this]
      conv_rhs => rw [hpre, ← hdrop]
      conv_rhs => rw [hrd, hr3]
    · cases hr3c : afterQuery (afterPath (afterHost (t.drop 7))) with
      | nil => rw [hr3c] at hr3; simp at hr3
      | cons a xs =>
        rw [hr3c] at hr3
        simp only [List.head?_cons, Option.some.injEq] at hr3
        subst hr3
        by_cases hxs : xs = []
        · right
          subst hxs
          refine ⟨httpPre ++ (hostOf (t.drop 7) ++ (pathOf (afterHost (t.drop 7)) ++
            queryOf (afterPath (afterHost (t.drop 7))))), ?_, ?_, ?_⟩
          · conv_lhs => rw [hpre, ← hdrop, hrd, hr3c]
            simp
          · intro hmem
            rcases List.mem_append.mp hmem with hm | hm
            · simp [httpPre] at hm
            · rcases List.mem_append.mp hm with hm | hm
              · exact hostOf_no_hash _ hm
              · rcases List.mem_append.mp hm with hm | hm
                · exact pathOf_no_hash _ hm
                · exact queryOf_no_hash _ hm
          · rw [hts, hr3c]
            have : fragRaw (('#' :: ([] : Str)).drop 1) = [] := rfl
            rw [this]
            simp
        · left
          rw [hts, hr3c]
          have : fragRaw (('#' :: xs).drop 1) = '#' :: xs := by
            unfold fragRaw
            rw [List.drop_one, List.tail_cons, if_neg hxs]
          rw [this]
          conv_rhs => rw [hpre, ← hdrop, hrd, hr3c]
  · obtain rfl := (Option.some.injEq _ _).mp h.symm
    have hts := parseFields_toString [] t
    rw [if_pos rfl, List.nil_append] at hts
    have hrd := rest_decomp t
    have hshape := afterQuery_shape t
    rcases hshape with hr3 | hr3
    · left
      rw [hts, hr3]
      have : fragRaw (([] : Str).drop 1) = [] := rfl
      rw [this]
      conv_rhs => rw [hrd, hr3]
    · cases hr3c : afterQuery (afterPath (afterHost t)) with
      | nil => rw [hr3c] at hr3; simp at hr3
      | cons a xs =>
        rw [hr3c] at hr3
        simp only [List.head?_cons, Option.some.injEq] at hr3
        subst hr3
        by_cases hxs : xs = []
        · right
          subst hxs
          refine ⟨hostOf t ++ (pathOf (afterHost t) ++
            queryOf (afterPath (afterHost t))), ?_, ?_, ?_⟩
          · conv_lhs => rw [hrd, hr3c]
            simp
          · intro hmem
            rcases List.mem_append.mp hmem with hm | hm
            · exact hostOf_no_hash _ hm
            · rcases List.mem_append.mp hm with hm | hm
              · exact pathOf_no_hash _ hm
              · exact queryOf_no_hash _ hm
          · rw [hts, hr3c]
            have : fragRaw (('#' :: ([] : Str)).drop 1) = [] := rfl
            rw [this]
            simp
        · left
          rw [hts, hr3c]
          have : fragRaw (('#' :: xs).drop 1) = '#' :: xs := by
            unfold fragRaw
            rw [List.drop_one, List.tail_cons, if_neg hxs]
          rw [this]
          conv_rhs => rw [hrd, hr3c]

/-- A string with exactly one hash splits uniquely at that hash. -/
theorem hash_split_unique (X : Str) : ∀ (Y a b : Str), '#' ∉ X → '#' ∉ Y →
    X ++ '#' :: a = Y ++ '#' :: b → X = Y ∧ a = b := by
  induction X with
  | nil =>
    intro Y a b _ hY h
    cases Y with
    | nil =>
      simp only [List.nil_append, List.cons.injEq] at h
      exact ⟨rfl, h.2⟩
    | cons y ys =>
      simp only [List.nil_append, List.cons_append, List.cons.injEq] at h
      obtain ⟨h1, h2⟩ := h
      subst h1
      exact absurd (List.mem_cons_self _ _) hY
  | cons x xs ih =>
    intro Y a b hX hY h
    cases Y with
    | nil =>
      simp only [List.cons_append, List.nil_append, List.cons.injEq] at h
      obtain ⟨h1, h2⟩ := h
      subst h1
      exact absurd (List.mem_cons_self _ _) hX
    | cons y ys =>
      simp only [List.cons_append, List.cons.injEq] at h
      obtain ⟨h1, h2⟩ := h
      subst h1
      have hr := ih ys a b (fun hm => hX (List.mem_cons_of_mem _ hm))
        (fun hm => hY (List.mem_cons_of_mem _ hm)) h2
      exact ⟨by rw [hr.1], hr.2⟩

/-- `ToString` of a well-formed URL is a hash-free prefix followed by the raw
fragment text. -/
theorem toString_decomp (u : URL) (h : URL.WF u) :
    ∃ Y, URL.ToString u = Y ++ fragRaw u.fragment ∧ '#' ∉ Y := by
  obtain ⟨hsch, hne, hhost, hpath, hquery⟩ := h
  refine ⟨(if u.scheme = [] then [] else u.scheme ++ sepStr) ++
    u.host ++
    (if u.path = [] then []
      else (if u.path.head? = some '/' then [] else ['/']) ++ u.path) ++
    u.query, rfl, ?_⟩
  intro hmem
  rcases List.mem_append.mp hmem with hm | hm
  · rcases List.mem_append.mp hm with hm | hm
    · rcases List.mem_append.mp hm with hm | hm
      · rcases hsch with h0 | h0 | h0 <;> rw [h0] at hm <;>
          simp [sepStr, schemeHttp, schemeHttps] at hm
      · exact absurd (hhost '#' hm) (by decide)
    · by_cases hp0 : u.path = []
      · rw [if_pos hp0] at hm
        simp at hm
      · rw [if_neg hp0] at hm
        rcases hpath with h0 | ⟨hph, hpc⟩
        · exact hp0 h0
        · rcases List.mem_append.mp hm with hm | hm
          · by_cases hh : u.path.head? = some '/'
            · rw [if_pos hh] at hm
              simp at hm
            · rw [if_neg hh] at hm
              simp at hm
          · exact absurd (hpc '#' hm) (by decide)
  · rcases hquery with h0 | ⟨hqh, hqc⟩
    · rw [h0] at hm
      simp at hm
    · exact absurd (hqc '#' hm) (by decide)

theorem hostOf_ne_of_head (s : Str) (c : Char) (h : s.head? = some c)
    (hc : hostChar c = true) : hostOf s ≠ [] := by
  cases s with
  | nil => simp at h
  | cons a r =>
    simp only [List.head?_cons, Option.some.injEq] at h
    subst h
    unfold hostOf
    rw [List.takeWhile_cons, if_pos hc]
    simp

/-- `ToString` of a well-formed URL is accepted back by the parser. -/
theorem WF_accepted (u : URL) (h : URL.WF u) :
    ∃ u2, URL.ParseOpt (URL.ToString u) = some u2 := by
  obtain ⟨hsch, hne, hhost, hpath, hquery⟩ := h
  have hT : hostOf (URL.ToString u) ≠ [] := by
    rcases hsch with h0 | h0 | h0
    · cases hhc : u.host with
      | nil => exact absurd hhc hne
      | cons c r =>
        have hh : (URL.ToString u).head? = some c := by
          unfold URL.ToString
          rw [h0, hhc]
          rfl
        exact hostOf_ne_of_head _ c hh
          (hhost c (by rw [hhc]; exact List.mem_cons_self _ _))
    · have hh : (URL.ToString u).head? = some 'h' := by
        unfold URL.ToString
        rw [h0]
        rfl
      exact hostOf_ne_of_head _ 'h' hh (by decide)
    · have hh : (URL.ToString u).head? = some 'h' := by
        unfold URL.ToString
        rw [h0]
        rfl
      exact hostOf_ne_of_head _ 'h' hh (by decide)
  unfold URL.ParseOpt
  split_ifs with h1 h2
  · exact ⟨_, rfl⟩
  · exact ⟨_, rfl⟩
  · exact ⟨_, rfl⟩

/-- C3: for every input string accepted by the URL grammar, parsing and
serializing is idempotent — `ToString (Parse (ToString (Parse s)))` equals
`ToString (Parse s)`. -/
theorem C3_parse_canonical (s : Str) (u : URL) (h : URL.ParseOpt s = some u) :
    URL.ToString (URL.Parse (URL.ToString (URL.Parse s))) =
      URL.ToString (URL.Parse s) := by
  have hps : URL.Parse s = u := by
    unfold URL.Parse
    rw [h]
    rfl
  rw [hps]
  have hwf : URL.WF u := ParseOpt_WF s u h
  obtain ⟨u2, h2⟩ := WF_accepted u hwf
  have hp2 : URL.Parse (URL.ToString u) = u2 := by
    unfold URL.Parse
    rw [h2]
    rfl
  rw [hp2]
  rcases ParseOpt_toString (URL.ToString u) u2 h2 with hcase | ⟨X, hX1, hX2, hX3⟩
  · exact hcase
  · exfalso
    obtain ⟨Y, hY1, hY2⟩ := toString_decomp u hwf
    by_cases hf : u.fragment = []
    · rw [hf] at hY1
      have hfr : fragRaw ([] : Str) = [] := rfl
      rw [hfr, List.append_nil] at hY1
      apply hY2
      rw [← hY1, hX1]
      exact List.mem_append.mpr (Or.inr (List.mem_cons_self _ _))
    · have hfr : fragRaw u.fragment = '#' :: u.fragment := by
        unfold fragRaw
        rw [if_neg hf]
      rw [hfr] at hY1
      have heq : X ++ '#' :: ([] : Str) = Y ++ '#' :: u.fragment :=
        hX1.symm.trans hY1
      have hr := hash_split_unique X Y [] u.fragment hX2 hY2 heq
      exact hf hr.2.symm

theorem C3_parse_canonical_witness :
    URL.ParseOpt ('h' :: 't' :: 't' :: 'p' :: ':' :: '/' :: '/' :: 'a' :: '/' :: 'b' :: '?' :: 'q' :: '#' :: 'f' :: []) =
      some (URL.Parse ('h' :: 't' :: 't' :: 'p' :: ':' :: '/' :: '/' :: 'a' :: '/' :: 'b' :: '?' :: 'q' :: '#' :: 'f' :: [])) ∧
    URL.ToString (URL.Parse (URL.ToString (URL.Parse
        ('h' :: 't' :: 't' :: 'p' :: ':' :: '/' :: '/' :: 'a' :: '/' :: 'b' :: '?' :: 'q' :: '#' :: 'f' :: [])))) =
      URL.ToString (URL.Parse ('h' :: 't' :: 't' :: 'p' :: ':' :: '/' :: '/' :: 'a' :: '/' :: 'b' :: '?' :: 'q' :: '#' :: 'f' :: [])) :=
  ⟨by decide,
   C3_parse_canonical ('h' :: 't' :: 't' :: 'p' :: ':' :: '/' :: '/' :: 'a' :: '/' :: 'b' :: '?' :: 'q' :: '#' :: 'f' :: [])
     (URL.Parse ('h' :: 't' :: 't' :: 'p' :: ':' :: '/' :: '/' :: 'a' :: '/' :: 'b' :: '?' :: 'q' :: '#' :: 'f' :: []))
     (by decide)⟩

end Crawler
